import Mathlib

/-!
Verification of the wiki-XML-to-markdown converter (`src/convert.py`) against its
natural-language specification.  The Python program is shallowly embedded: pure
functions become Lean functions, the streaming main loop becomes a recursive
function over a list of parser events, the cooperative cancellation flag becomes
an abstract tick count at which the flag turns (and stays) true, and the worker
pool's per-record success or failure becomes an oracle indexed by dispatch order.
-/

set_option maxRecDepth 4000

/-- Python whitespace set used by `str.strip` and the regex class `\s`
(ASCII part; the claims only involve ASCII text). -/
def pyWs (c : Char) : Bool :=
  c = ' ' || c = Char.ofNat 9 || c = Char.ofNat 10 || c = Char.ofNat 13 ||
  c = Char.ofNat 11 || c = Char.ofNat 12

/-- Model of Python `str.strip()`: drop leading and trailing whitespace. -/
def pyStrip (s : String) : String :=
  (((s.data.dropWhile pyWs).reverse.dropWhile pyWs).reverse).asString

/-- A `page` XML element as seen by `process_page` (convert.py:80-93):
`title` is `title_elem.text` (`none` when the element is missing or has no
text) and `text` is the `revision/text` element's text. -/
structure Page where
  title : Option String
  text : Option String
deriving DecidableEq, Repr

/-- Embedding of `process_page` (convert.py:80-93): a record `(title, text)`
is produced iff both the title element and the revision text element are
present with non-null text; the returned fields are stripped. -/
def process_page (e : Page) : Option (String × String) :=
  match e.title, e.text with
  | some t, some x => some (pyStrip t, pyStrip x)
  | _, _ => none

/-- One event delivered by `ET.iterparse` to the main loop (convert.py:228):
either the `end` event of a `page` element in the detected namespace, or any
other event (start events, ends of non-page elements). -/
inductive Event
  | pageEnd (p : Page)
  | other
deriving DecidableEq, Repr

/-- Checkpoint status written by `save_state` (convert.py:46-47). -/
inductive Status
  | in_progress
  | terminated
deriving DecidableEq, Repr

/-- One durable checkpoint record as written by `save_state` (convert.py:40-49),
with the timestamp abstracted away. -/
structure SavedState where
  position : Nat
  success : Nat
  failed : Nat
  status : Status
deriving DecidableEq, Repr

/-- The mutable counters of `main` (convert.py:218-220): `processed`,
`success`, `failed`. -/
structure LoopState where
  processed : Nat
  success : Nat
  failed : Nat
deriving DecidableEq, Repr

/-- Observable outcome of a run of the main loop: the sequence of checkpoint
writes, the process exit code, the unconsumed suffix of the event stream, and
the final counters. -/
structure RunTrace where
  saves : List SavedState
  exitCode : Nat
  rest : List Event
  final : LoopState
deriving DecidableEq, Repr

/-- Embedding of the inner batch-filling loop (convert.py:255-266): keep
pulling events while the batch is below `bs`; an `end`-of-page event is
validated with `process_page` and appended only when a record is produced
(an invalid page is consumed and silently dropped); other events are
consumed and ignored.  Returns the batch, the unconsumed suffix, and the
number of events consumed. -/
def fillBatch (bs : Nat) : List (String × String) → List Event →
    List (String × String) × List Event × Nat
  | batch, [] => (batch, [], 0)
  | batch, e :: evs =>
    if batch.length < bs then
      let batch' :=
        match e with
        | .pageEnd p =>
          match process_page p with
          | some r => batch ++ [r]
          | none => batch
        | .other => batch
      let res := fillBatch bs batch' evs
      (res.1, res.2.1, res.2.2 + 1)
    else (batch, e :: evs, 0)

/-- Worker-pool results for a batch of `n` records dispatched starting at
global dispatch index `d` (convert.py:269-274): the oracle gives each
record's success. -/
def batchResults (oracle : Nat → Bool) (d n : Nat) : List Bool :=
  (List.range n).map (fun i => oracle (d + i))

/-- Fuel-indexed embedding of the main event loop (convert.py:228-287).
Time `t` counts ticks: consuming one event is one tick and executing one
batch is one tick; the cancellation flag `should_exit` reads true exactly
when `T ≤` the current tick count (the flag is set once at tick `T` and
never reverts).  The flag is checked at the top of each outer iteration,
right after pulling an event (convert.py:229); a flag observed there causes
a final `save_state` (whose status is `terminated` because the flag is set)
followed by `sys.exit(0)`.  A validated head page opens a batch, the inner
loop fills it, the pool runs it, counters and `position` are updated by the
batch's record count, and `save_state` runs after the barrier; the saved
status is `terminated` when the flag was set by the end of the batch.
An invalid head page only bumps `failed` and `processed`.  End of stream
ends `main` normally (exit code 0, no extra save).  The fuel argument only
forces termination; `run` below supplies enough fuel. -/
def runF (bs : Nat) (oracle : Nat → Bool) (T : Nat) :
    Nat → List Event → Nat → Nat → LoopState → List SavedState → RunTrace
  | 0, evs, _, _, st, saves => ⟨saves, 0, evs, st⟩
  | _ + 1, [], _, _, st, saves => ⟨saves, 0, [], st⟩
  | fuel + 1, e :: evs, t, d, st, saves =>
    if T ≤ t + 1 then
      ⟨saves ++ [⟨st.processed, st.success, st.failed, .terminated⟩], 0, evs, st⟩
    else
      match e with
      | .other => runF bs oracle T fuel evs (t + 1) d st saves
      | .pageEnd p =>
        match process_page p with
        | none =>
          runF bs oracle T fuel evs (t + 1) d
            ⟨st.processed + 1, st.success, st.failed + 1⟩ saves
        | some r =>
          let fb := fillBatch bs [r] evs
          let results := batchResults oracle d fb.1.length
          let ns := results.count true
          let st' : LoopState :=
            ⟨st.processed + fb.1.length, st.success + ns, st.failed + (fb.1.length - ns)⟩
          let status : Status :=
            if T ≤ t + 1 + fb.2.2 + 1 then .terminated else .in_progress
          runF bs oracle T fuel fb.2.1 (t + 1 + fb.2.2 + 1) (d + fb.1.length) st'
            (saves ++ [⟨st'.processed, st'.success, st'.failed, status⟩])

/-- The main loop (convert.py:228-287) with enough fuel for the whole event
stream. -/
def run (bs : Nat) (oracle : Nat → Bool) (T : Nat) (evs : List Event)
    (t d : Nat) (st : LoopState) (saves : List SavedState) : RunTrace :=
  runF bs oracle T evs.length evs t d st saves

/-- Records extracted from a list of events in order: `end`-of-page events
that pass validation. -/
def validRecs : List Event → List (String × String)
  | [] => []
  | .pageEnd p :: evs =>
    match process_page p with
    | some r => r :: validRecs evs
    | none => validRecs evs
  | .other :: evs => validRecs evs

/-- Number of page elements among a list of events. -/
def pagesIn : List Event → Nat
  | [] => 0
  | .pageEnd _ :: evs => pagesIn evs + 1
  | .other :: evs => pagesIn evs

/-- Invariant relating a run's trace to its starting counters `st`: every
checkpoint written during the run has a position at least the starting
position and at most the final position, the counter increments at each
checkpoint account exactly for the position increment, checkpoint positions
are non-decreasing in write order, the final position is bounded by the
starting position plus the number of page elements consumed, and the exit
code is `0`. -/
def RunInv (st : LoopState) (evs : List Event) (saves : List SavedState)
    (tr : RunTrace) : Prop :=
  ∃ new, tr.saves = saves ++ new ∧
    (∀ sv ∈ new,
      st.processed ≤ sv.position ∧
      sv.position ≤ tr.final.processed ∧
      sv.position + st.success + st.failed = sv.success + sv.failed + st.processed) ∧
    new.Pairwise (fun a b => a.position ≤ b.position) ∧
    st.processed ≤ tr.final.processed ∧
    tr.final.processed + st.success + st.failed
      = tr.final.success + tr.final.failed + st.processed ∧
    tr.final.processed + pagesIn tr.rest ≤ st.processed + pagesIn evs ∧
    tr.exitCode = 0

/-- Validity condition of C3 transcribed from the specification's words: a
field counts only when it is present and non-empty after trimming. -/
def presentNonEmpty (o : Option String) : Bool :=
  match o with
  | some t => pyStrip t != ""
  | none => false

/-- Claim C3 as the specification states it, for one page element: a record
is produced iff both the title and the revision text are present and
non-empty after trimming. -/
def claimC3_spec (e : Page) : Prop :=
  (process_page e).isSome = (presentNonEmpty e.title && presentNonEmpty e.text)

/-- A JSON value as produced by `json.load` (convert.py:55). -/
inductive Jval
  | jnull
  | jbool (b : Bool)
  | jnum (n : Int)
  | jstr (s : String)
  | jarr (xs : List Jval)
  | jobj (kvs : List (String × Jval))

/-- Python truthiness of a JSON-decoded value, as tested by the conditional
expressions at convert.py:218-220. -/
def jtruthy : Jval → Bool
  | .jnull => false
  | .jbool b => b
  | .jnum n => n != 0
  | .jstr s => s != ""
  | .jarr xs => !xs.isEmpty
  | .jobj kvs => !kvs.isEmpty

/-- Python subscript `state[k]`: a present key of a dict yields its value; a
missing key (KeyError) or a non-dict value (TypeError) raises, and no
handler around convert.py:218-220 catches it. -/
def jget (k : String) : Jval → Except Unit Jval
  | .jobj kvs =>
    match kvs.lookup k with
    | some v => .ok v
    | none => .error ()
  | _ => .error ()

/-- Durable checkpoint file as `load_state` (convert.py:52-57) can observe
it: absent (FileNotFoundError), present but not decodable as JSON
(json.JSONDecodeError — the corrupt case), or decoded to a JSON value. -/
inductive FileContent
  | absent
  | undecodable
  | decoded (j : Jval)

/-- Embedding of `load_state` (convert.py:52-57): `None` when the file is
absent or not decodable as JSON, else the decoded value. -/
def load_state : FileContent → Option Jval
  | .absent => none
  | .undecodable => none
  | .decoded j => some j

/-- Embedding of the resume logic of `main` (convert.py:216-220): each of
`processed`, `success`, `failed` comes from the loaded state when it is
truthy, else defaults to the `--resume-from` argument, 0 and 0; subscripting
a truthy non-record raises an uncaught error (`.error`).  The saved `status`
field is never consulted. -/
def resume_init (fc : FileContent) (resumeFrom : Int) :
    Except Unit (Jval × Jval × Jval) :=
  match load_state fc with
  | none => .ok (.jnum resumeFrom, .jnum 0, .jnum 0)
  | some st =>
    if jtruthy st then do
      let p ← jget ("position") st
      let s ← jget ("success") st
      let f ← jget ("failed") st
      return (p, s, f)
    else .ok (.jnum resumeFrom, .jnum 0, .jnum 0)

/-- The JSON record written by `save_state` (convert.py:40-49). -/
def save_json (position success failed : Nat) (shouldExit : Bool) (ts : String) : Jval :=
  .jobj [("position", .jnum position), ("success", .jnum success),
    ("failed", .jnum failed), ("last_updated", .jstr ts),
    ("status", .jstr (if shouldExit then "terminated" else "in_progress"))]

/-- Outcome of the external renderer invocation (convert.py:166-167): the
process either completes with an exit status and captured output, or the
bounded wall-clock timeout expires (subprocess.TimeoutExpired). -/
inductive RenderOutcome
  | completes (exitCode : Int) (stdout : String) (stderr : String)
  | timesOut

/-- Embedding of `convert_to_markdown` (convert.py:156-183): a non-zero exit
status or a timeout yields `None`; otherwise the captured stdout is returned
as-is (possibly empty). -/
def convert_to_markdown : RenderOutcome → Option String
  | .completes code out _ => if code ≠ 0 then none else some out
  | .timesOut => none

/-- Filesystem actions on the scoped temporary file of
`convert_to_markdown`, in program order: the file is written before the
subprocess call (convert.py:159-161) and the `finally` block
(convert.py:179-183) unlinks it on the success, non-zero-exit and timeout
paths alike. -/
inductive FsAction
  | writeTemp
  | unlinkTemp
deriving DecidableEq, Repr

/-- Temporary-file trace of `convert_to_markdown` for each outcome of the
external call: every control path runs the `finally` unlink. -/
def convert_actions : RenderOutcome → List FsAction
  | .completes _ _ _ => [.writeTemp, .unlinkTemp]
  | .timesOut => [.writeTemp, .unlinkTemp]

/-- Embedding of the failure check in `process_single_page`
(convert.py:106-108): the conversion result counts as failed when it is
`None` or empty (`if not converted`). -/
def conversion_failed (o : RenderOutcome) : Bool :=
  match convert_to_markdown o with
  | none => true
  | some s => s == ""

/-- Character lists, the working representation for the cleaner. -/
abbrev Str := List Char

/-- The left brace character (written via its code point so that pattern
literals stay readable as data). -/
def lbr : Char := Char.ofNat 123

/-- The right brace character. -/
def rbr : Char := Char.ofNat 125

/-- The double-quote character. -/
def dquo : Char := Char.ofNat 34

/-- The single-quote character. -/
def squo : Char := Char.ofNat 39

/-- The newline character. -/
def nl : Char := Char.ofNat 10

/-- Drop an exact literal from the front of a string, or fail. -/
def dropPref : Str → Str → Option Str
  | [], l => some l
  | _ :: _, [] => none
  | p :: ps, c :: cs => if c = p then dropPref ps cs else none

/-- Fuel-indexed global substitution in the style of Python `re.sub`
(convert.py:149-150): scan left to right; at each position either the
matcher `tm` yields a replacement and the remainder after the match (the
scan continues after the match, replacements are not rescanned), or the
character is copied.  The fuel only forces termination; `subst` below
supplies enough for every matcher that consumes at least one character. -/
def substF (tm : Str → Option (Str × Str)) : Nat → Str → Str
  | 0, l => l
  | _ + 1, [] => []
  | fuel + 1, c :: l =>
    match tm (c :: l) with
    | some res => res.1 ++ substF tm fuel res.2
    | none => c :: substF tm fuel l

/-- Global leftmost non-overlapping substitution, `re.sub p r text`. -/
def subst (tm : Str → Option (Str × Str)) (l : Str) : Str := substF tm l.length l

/-- A matcher consumes at least one character wherever it matches. -/
def Consuming (tm : Str → Option (Str × Str)) : Prop :=
  ∀ l res, tm l = some res → res.2.length < l.length

/-- Shared shape of the rules whose regex is a literal prefix `P`, a greedy
non-empty character class excluding `stop`, and a literal tail `Q`: the
greedy run is the maximal `stop`-free run, after which the tail must match
exactly (backtracking cannot shorten the run, since the first given-back
character would have to equal `stop`). -/
def matchCore (P : Str) (stop : Char) (Q : Str) (f : Str → Str) (l : Str) :
    Option (Str × Str) :=
  match dropPref P l with
  | none => none
  | some r =>
    match r.takeWhile (fun c => c != stop) with
    | [] => none
    | _ :: _ =>
      match dropPref Q (r.dropWhile (fun c => c != stop)) with
      | none => none
      | some rest => some (f (r.takeWhile (fun c => c != stop)), rest)

/-- Rule 1 pattern literal (convert.py:133): an opening table tag with the
malformed `; text-align:` attribute syntax. -/
def pat1 : Str := lbr :: ("| class=\"wikitable sortable mw-collapsible\" ; text-align:").data

/-- Rule 1 replacement builder (convert.py:134): the group `\1` is
`text-align:` plus the captured run. -/
def rep1 (v : Str) : Str :=
  lbr :: ("| class=\"wikitable sortable mw-collapsible\" style=\"text-align:").data ++
    v ++ [dquo]

/-- Rule 1 (convert.py:133-134). -/
def tryRule1 : Str → Option (Str × Str) := matchCore pat1 dquo [dquo] rep1

/-- Rule 2 (convert.py:135): `\|-\s*$` → `|-`.  Without `re.MULTILINE`, `$`
matches only at the end of the string or just before a final newline, so the
pattern matches exactly when everything after `|-` is whitespace; the greedy
`\s*` then consumes it all. -/
def tryRule2 (l : Str) : Option (Str × Str) :=
  match dropPref (("|-").data) l with
  | none => none
  | some r => if r.all pyWs then some (("|-").data, []) else none

/-- Rule 3 pattern literal (convert.py:136). -/
def pat3 : Str := ("| style=\"vertical-align: top; |").data

/-- Rule 3 replacement literal (convert.py:137). -/
def rep3 : Str := ("| style=\"vertical-align: top;\" |").data

/-- Rule 3 (convert.py:136-137): a fixed-string rewrite. -/
def tryRule3 (l : Str) : Option (Str × Str) :=
  match dropPref pat3 l with
  | none => none
  | some rest => some (rep3, rest)

/-- Rule 4 pattern literal (convert.py:138): the braces and inner quotes of
the spreadsheet-export attribute are literal regex characters. -/
def pat4 : Str := ("data-sheets-value=\"").data ++ [lbr] ++ ("\"1\":2,\"2\":\"").data

/-- Rule 4 (convert.py:138-139). -/
def tryRule4 : Str → Option (Str × Str) :=
  matchCore pat4 dquo [dquo, rbr, dquo]
    (fun v => ("data-sheets-value=\"").data ++ v ++ [dquo])

/-- Rule 5 pattern literal (convert.py:140): `\{\{short description\|`. -/
def pat5 : Str := lbr :: lbr :: ("short description|").data

/-- Rule 5 replacement builder (convert.py:141). -/
def rep5 (v : Str) : Str := ("<!-- Short description: ").data ++ v ++ (" -->").data

/-- Rule 5 (convert.py:140-141). -/
def tryRule5 : Str → Option (Str × Str) := matchCore pat5 rbr [rbr, rbr] rep5

/-- Rule 6 pattern literal (convert.py:142): `\{\{Use `. -/
def pat6 : Str := lbr :: lbr :: ("Use ").data

/-- Rule 6 (convert.py:142): `Use ...` templates are stripped entirely. -/
def tryRule6 : Str → Option (Str × Str) := matchCore pat6 rbr [rbr, rbr] (fun _ => [])

/-- Opening literal of an empty named reference with quote character `q`
(convert.py:143-144). -/
def refOpen (q : Char) : Str := ("<ref name=").data ++ [q]

/-- Rules 7 and 8 (convert.py:143-144): `<ref name=q...q>\s*</ref>` with `q`
the double or single quote; the name is the maximal non-`q` run, the `\s*`
run is maximal whitespace (backtracking cannot help since `</ref>` starts
with a non-whitespace character). -/
def tryRef (q : Char) (l : Str) : Option (Str × Str) :=
  match dropPref (refOpen q) l with
  | none => none
  | some r =>
    match r.takeWhile (fun c => c != q) with
    | [] => none
    | _ :: _ =>
      match dropPref [q, '>'] (r.dropWhile (fun c => c != q)) with
      | none => none
      | some r2 =>
        match dropPref (("</ref>").data) (r2.dropWhile pyWs) with
        | none => none
        | some rest =>
          some (("<!--ref ").data ++ r.takeWhile (fun c => c != q) ++ ("-->").data, rest)

/-- Rule 7 (convert.py:143): double-quoted empty named reference. -/
def tryRule7 : Str → Option (Str × Str) := tryRef dquo

/-- Rule 8 (convert.py:144): single-quoted empty named reference. -/
def tryRule8 : Str → Option (Str × Str) := tryRef squo

/-- Rule 9 (convert.py:145): the catch-all template rule
`\{\{([^}]+)\}\}` → an HTML comment retaining the inner text. -/
def tryRule9 : Str → Option (Str × Str) :=
  matchCore [lbr, lbr] rbr [rbr, rbr] (fun v => ("<!-- ").data ++ v ++ (" -->").data)

/-- Lazy scan of `(.+?)\]\]` (convert.py:146): after at least one non-newline
character, stop at the earliest `]]`. -/
def linkScan : Str → Option (Str × Str)
  | [] => none
  | c :: rest =>
    if c = nl then none
    else
      match rest with
      | ']' :: ']' :: r2 => some ([c], r2)
      | _ =>
        match linkScan rest with
        | some res => some (c :: res.1, res.2)
        | none => none

/-- Python `link.split('|', 1)`: the part before the first pipe, and the
part after it when a pipe exists. -/
def splitPipe : Str → Str × Option Str
  | [] => ([], none)
  | c :: r =>
    if c = '|' then ([], some r)
    else
      let res := splitPipe r
      (c :: res.1, res.2)

/-- Python `target.replace(" ", "_")`. -/
def underscore (s : Str) : Str := s.map (fun c => if c = ' ' then '_' else c)

/-- Embedding of `process_wikilink` (convert.py:122-126): with a pipe, the
label is everything right of the first pipe and the target is the left part
with spaces replaced by underscores; without a pipe, the label is the raw
link text and only the target gets underscores. -/
def process_wikilink (link : Str) : Str :=
  match splitPipe link with
  | (target, some label) => '[' :: label ++ ("](/").data ++ underscore target ++ [')']
  | (_, none) => '[' :: link ++ ("](/").data ++ underscore link ++ [')']

/-- Rule 10 (convert.py:146): `\[\[(.+?)\]\]` rewritten through
`process_wikilink`. -/
def tryRule10 (l : Str) : Option (Str × Str) :=
  match dropPref (("[[").data) l with
  | none => none
  | some r =>
    match linkScan r with
    | some res => some (process_wikilink res.1, res.2)
    | none => none

/-- The ordered rule list of `clean_wiki_markup` (convert.py:132-147). -/
def ruleList : List (Str → Option (Str × Str)) :=
  [tryRule1, tryRule2, tryRule3, tryRule4, tryRule5,
   tryRule6, tryRule7, tryRule8, tryRule9, tryRule10]

/-- Embedding of the loop at convert.py:149-150: each rule's output feeds
the next rule's input. -/
def cleanL (l : Str) : Str := ruleList.foldl (fun acc tm => subst tm acc) l

/-- Embedding of `clean_wiki_markup` (convert.py:129-153). -/
def clean_wiki_markup (s : String) : String := (cleanL s.data).asString

/-- Characters allowed inside the payloads (description text, reference
names, filler) of the C7 normalized-construct language: anything except the
cleaner's metacharacters. -/
def plainChar (c : Char) : Bool :=
  c != lbr && c != rbr && c != '<' && c != '>' && c != '[' && c != ']' &&
  c != '|' && c != dquo && c != squo && c != '-'

/-- One construct of the C7 input language (spec section 8: inputs containing
only short-description and empty-named-reference constructs, with plain
filler text between them). -/
inductive Construct
  | shortDesc (t : Str)
  | refD (n : Str)
  | refS (n : Str)
  | filler (f : Str)

/-- Source text of one construct. -/
def Construct.render : Construct → Str
  | .shortDesc t => pat5 ++ t ++ [rbr, rbr]
  | .refD n => refOpen dquo ++ n ++ dquo :: '>' :: ("</ref>").data
  | .refS n => refOpen squo ++ n ++ squo :: '>' :: ("</ref>").data
  | .filler f => f

/-- Well-formedness: payloads are plain, and template and reference payloads
are non-empty (their regexes require at least one character). -/
def Construct.WF : Construct → Prop
  | .shortDesc t => t ≠ [] ∧ ∀ c ∈ t, plainChar c = true
  | .refD n => n ≠ [] ∧ ∀ c ∈ n, plainChar c = true
  | .refS n => n ≠ [] ∧ ∀ c ∈ n, plainChar c = true
  | .filler f => ∀ c ∈ f, plainChar c = true

/-- Concatenated rendering of a construct list under a per-construct
rendering function. -/
def renderWith (g : Construct → Str) : List Construct → Str
  | [] => []
  | k :: ks => g k ++ renderWith g ks

/-- The source text of a construct list. -/
def renderAll : List Construct → Str := renderWith Construct.render

/-- The comment emitted for an empty named reference (convert.py:143-144). -/
def refComment (n : Str) : Str := ("<!--ref ").data ++ n ++ ("-->").data

/-- Construct rendering after rule 5 has rewritten short descriptions. -/
def Construct.renderA : Construct → Str
  | .shortDesc t => rep5 t
  | k => k.render

/-- Construct rendering after rules 5 and 7. -/
def Construct.renderB : Construct → Str
  | .shortDesc t => rep5 t
  | .refD n => refComment n
  | k => k.render

/-- Fully cleaned construct rendering (after all ten rules). -/
def Construct.renderC : Construct → Str
  | .shortDesc t => rep5 t
  | .refD n => refComment n
  | .refS n => refComment n
  | .filler f => f

theorem pagesIn_append (a b : List Event) : pagesIn (a ++ b) = pagesIn a + pagesIn b := by
  induction a with
  | nil => simp [pagesIn]
  | cons e a ih =>
    cases e with
    | pageEnd p => simp [pagesIn, ih]; omega
    | other => simp [pagesIn, ih]

theorem validRecs_length_le (l : List Event) : (validRecs l).length ≤ pagesIn l := by
  induction l with
  | nil => simp [validRecs, pagesIn]
  | cons e l ih =>
    cases e with
    | pageEnd p =>
      cases hp : process_page p <;> simp [validRecs, pagesIn, hp] <;> omega
    | other => simpa [validRecs, pagesIn] using ih

theorem fillBatch_eq (bs : Nat) :
    ∀ (evs : List Event) (batch : List (String × String)), ∃ k,
      fillBatch bs batch evs = (batch ++ validRecs (evs.take k), evs.drop k, k) ∧
      k ≤ evs.length := by
  intro evs
  induction evs with
  | nil => intro batch; exact ⟨0, by simp [fillBatch, validRecs], by simp⟩
  | cons e evs ih =>
    intro batch
    by_cases h : batch.length < bs
    · cases e with
      | pageEnd p =>
        cases hp : process_page p with
        | some r =>
          obtain ⟨k, hk, hle⟩ := ih (batch ++ [r])
          refine ⟨k + 1, ?_, by simpa using hle⟩
          simp [fillBatch, h, hp, hk, validRecs]
        | none =>
          obtain ⟨k, hk, hle⟩ := ih batch
          refine ⟨k + 1, ?_, by simpa using hle⟩
          simp [fillBatch, h, hp, hk, validRecs]
      | other =>
        obtain ⟨k, hk, hle⟩ := ih batch
        refine ⟨k + 1, ?_, by simpa using hle⟩
        simp [fillBatch, h, hk, validRecs]
    · exact ⟨0, by simp [fillBatch, h, validRecs], by simp⟩

theorem fillBatch_rest_le (bs : Nat) (batch : List (String × String)) (evs : List Event) :
    (fillBatch bs batch evs).2.1.length ≤ evs.length := by
  obtain ⟨k, hk, -⟩ := fillBatch_eq bs evs batch
  simp [hk]

theorem runF_flag (bs T t d n : Nat) (oracle : Nat → Bool) (e : Event) (evs : List Event)
    (st : LoopState) (saves : List SavedState) (h : T ≤ t + 1) :
    runF bs oracle T (n + 1) (e :: evs) t d st saves =
      ⟨saves ++ [⟨st.processed, st.success, st.failed, .terminated⟩], 0, evs, st⟩ := by
  simp [runF, h]

theorem runF_other (bs T t d n : Nat) (oracle : Nat → Bool) (evs : List Event)
    (st : LoopState) (saves : List SavedState) (h : ¬ T ≤ t + 1) :
    runF bs oracle T (n + 1) (.other :: evs) t d st saves =
      runF bs oracle T n evs (t + 1) d st saves := by
  simp [runF, h]

theorem runF_invalid (bs T t d n : Nat) (oracle : Nat → Bool) (p : Page) (evs : List Event)
    (st : LoopState) (saves : List SavedState) (h : ¬ T ≤ t + 1)
    (hp : process_page p = none) :
    runF bs oracle T (n + 1) (.pageEnd p :: evs) t d st saves =
      runF bs oracle T n evs (t + 1) d
        ⟨st.processed + 1, st.success, st.failed + 1⟩ saves := by
  simp [runF, h, hp]

theorem runF_batch (bs T t d n : Nat) (oracle : Nat → Bool) (p : Page) (r : String × String)
    (evs rest : List Event) (batch : List (String × String)) (k : Nat)
    (st : LoopState) (saves : List SavedState) (h : ¬ T ≤ t + 1)
    (hp : process_page p = some r) (hfb : fillBatch bs [r] evs = (batch, rest, k)) :
    runF bs oracle T (n + 1) (.pageEnd p :: evs) t d st saves =
      runF bs oracle T n rest (t + 1 + k + 1) (d + batch.length)
        ⟨st.processed + batch.length,
         st.success + (batchResults oracle d batch.length).count true,
         st.failed + (batch.length - (batchResults oracle d batch.length).count true)⟩
        (saves ++ [⟨st.processed + batch.length,
          st.success + (batchResults oracle d batch.length).count true,
          st.failed + (batch.length - (batchResults oracle d batch.length).count true),
          if T ≤ t + 1 + k + 1 then .terminated else .in_progress⟩]) := by
  simp [runF, h, hp, hfb]

theorem runF_irrel (bs T : Nat) (oracle : Nat → Bool) :
    ∀ (n m : Nat) (evs : List Event) (t d : Nat) (st : LoopState) (saves : List SavedState),
      evs.length ≤ n → evs.length ≤ m →
      runF bs oracle T n evs t d st saves = runF bs oracle T m evs t d st saves := by
  intro n
  induction n with
  | zero =>
    intro m evs t d st saves hn _
    have : evs = [] := List.length_eq_zero.mp (Nat.le_zero.mp hn)
    subst this
    cases m <;> rfl
  | succ n ih =>
    intro m evs t d st saves hn hm
    cases evs with
    | nil => cases m <;> rfl
    | cons e evs =>
      have hm1 : 0 < m := lt_of_lt_of_le (by simp) hm
      obtain ⟨m', rfl⟩ : ∃ m', m = m' + 1 := ⟨m - 1, by omega⟩
      simp only [List.length_cons] at hn hm
      by_cases h : T ≤ t + 1
      · rw [runF_flag _ _ _ _ _ _ _ _ _ _ h, runF_flag _ _ _ _ _ _ _ _ _ _ h]
      · cases e with
        | other =>
          rw [runF_other _ _ _ _ _ _ _ _ _ h, runF_other _ _ _ _ _ _ _ _ _ h]
          exact ih m' evs _ _ _ _ (by omega) (by omega)
        | pageEnd p =>
          cases hp : process_page p with
          | none =>
            rw [runF_invalid _ _ _ _ _ _ _ _ _ _ h hp, runF_invalid _ _ _ _ _ _ _ _ _ _ h hp]
            exact ih m' evs _ _ _ _ (by omega) (by omega)
          | some r =>
            obtain ⟨k, hfb, hk⟩ := fillBatch_eq bs evs [r]
            rw [runF_batch _ _ _ _ _ _ _ _ _ _ _ _ _ _ h hp hfb,
              runF_batch _ _ _ _ _ _ _ _ _ _ _ _ _ _ h hp hfb]
            exact ih m' _ _ _ _ _ (by simp; omega) (by simp; omega)

theorem run_nil (bs T t d : Nat) (oracle : Nat → Bool) (st : LoopState)
    (saves : List SavedState) :
    run bs oracle T [] t d st saves = ⟨saves, 0, [], st⟩ := rfl

theorem run_flag (bs T t d : Nat) (oracle : Nat → Bool) (e : Event) (evs : List Event)
    (st : LoopState) (saves : List SavedState) (h : T ≤ t + 1) :
    run bs oracle T (e :: evs) t d st saves =
      ⟨saves ++ [⟨st.processed, st.success, st.failed, .terminated⟩], 0, evs, st⟩ :=
  runF_flag _ _ _ _ _ _ _ _ _ _ h

theorem run_other (bs T t d : Nat) (oracle : Nat → Bool) (evs : List Event)
    (st : LoopState) (saves : List SavedState) (h : ¬ T ≤ t + 1) :
    run bs oracle T (.other :: evs) t d st saves =
      run bs oracle T evs (t + 1) d st saves :=
  runF_other _ _ _ _ _ _ _ _ _ h

theorem run_invalid (bs T t d : Nat) (oracle : Nat → Bool) (p : Page) (evs : List Event)
    (st : LoopState) (saves : List SavedState) (h : ¬ T ≤ t + 1)
    (hp : process_page p = none) :
    run bs oracle T (.pageEnd p :: evs) t d st saves =
      run bs oracle T evs (t + 1) d ⟨st.processed + 1, st.success, st.failed + 1⟩ saves :=
  runF_invalid _ _ _ _ _ _ _ _ _ _ h hp

theorem run_batch (bs T t d : Nat) (oracle : Nat → Bool) (p : Page) (r : String × String)
    (evs rest : List Event) (batch : List (String × String)) (k : Nat)
    (st : LoopState) (saves : List SavedState) (h : ¬ T ≤ t + 1)
    (hp : process_page p = some r) (hfb : fillBatch bs [r] evs = (batch, rest, k)) :
    run bs oracle T (.pageEnd p :: evs) t d st saves =
      run bs oracle T rest (t + 1 + k + 1) (d + batch.length)
        ⟨st.processed + batch.length,
         st.success + (batchResults oracle d batch.length).count true,
         st.failed + (batch.length - (batchResults oracle d batch.length).count true)⟩
        (saves ++ [⟨st.processed + batch.length,
          st.success + (batchResults oracle d batch.length).count true,
          st.failed + (batch.length - (batchResults oracle d batch.length).count true),
          if T ≤ t + 1 + k + 1 then .terminated else .in_progress⟩]) := by
  rw [run, List.length_cons, runF_batch _ _ _ _ _ _ _ _ _ _ _ _ _ _ h hp hfb]
  apply runF_irrel
  · have := fillBatch_rest_le bs [r] evs
    rw [hfb] at this
    simpa using this
  · rfl

theorem pagesIn_cons_le (e : Event) (evs : List Event) :
    pagesIn evs ≤ pagesIn (e :: evs) := by
  cases e <;> simp [pagesIn]

theorem batchResults_length (oracle : Nat → Bool) (d n : Nat) :
    (batchResults oracle d n).length = n := by
  simp [batchResults]

theorem RunInv.of_id (st : LoopState) (evs rest : List Event) (saves : List SavedState)
    (h : pagesIn rest ≤ pagesIn evs) :
    RunInv st evs saves ⟨saves, 0, rest, st⟩ := by
  refine ⟨[], by simp, by simp, by simp, le_rfl, ?_, ?_, rfl⟩
  · show st.processed + st.success + st.failed = st.success + st.failed + st.processed
    omega
  · simpa using h

theorem RunInv.of_flag (st : LoopState) (evs rest : List Event) (saves : List SavedState)
    (h : pagesIn rest ≤ pagesIn evs) :
    RunInv st evs saves
      ⟨saves ++ [⟨st.processed, st.success, st.failed, .terminated⟩], 0, rest, st⟩ := by
  refine ⟨[⟨st.processed, st.success, st.failed, .terminated⟩], rfl, ?_, ?_, le_rfl,
    ?_, by simpa using h, rfl⟩
  · intro sv hsv
    simp only [List.mem_singleton] at hsv
    subst hsv
    refine ⟨le_rfl, le_rfl, ?_⟩
    show st.processed + st.success + st.failed = st.success + st.failed + st.processed
    omega
  · simp
  · show st.processed + st.success + st.failed = st.success + st.failed + st.processed
    omega

theorem RunInv.step (st st' : LoopState) (evs evs' : List Event)
    (saves newHead : List SavedState) (tr : RunTrace)
    (hinv : RunInv st' evs' (saves ++ newHead) tr)
    (hlen : newHead.length ≤ 1)
    (hle : st.processed ≤ st'.processed)
    (hsum : st'.processed + st.success + st.failed = st'.success + st'.failed + st.processed)
    (hpages : st'.processed + pagesIn evs' ≤ st.processed + pagesIn evs)
    (hheads : ∀ sv ∈ newHead,
      sv.position = st'.processed ∧
      sv.position + st.success + st.failed = sv.success + sv.failed + st.processed) :
    RunInv st evs saves tr := by
  obtain ⟨new', hsaves, hmem, hpw, hfin, hfsum, hfpages, hexit⟩ := hinv
  refine ⟨newHead ++ new', ?_, ?_, ?_, le_trans hle hfin, by omega, by omega, hexit⟩
  · rw [hsaves, List.append_assoc]
  · intro sv hsv
    rcases List.mem_append.mp hsv with h1 | h2
    · obtain ⟨h1a, h1c⟩ := hheads sv h1
      exact ⟨h1a ▸ hle, h1a ▸ hfin, h1c⟩
    · obtain ⟨h2a, h2b, h2c⟩ := hmem sv h2
      exact ⟨le_trans hle h2a, h2b, by omega⟩
  · rw [List.pairwise_append]
    refine ⟨?_, hpw, ?_⟩
    · match newHead, hlen with
      | [], _ => exact List.Pairwise.nil
      | [a], _ => simp
    · intro a ha b hb
      obtain ⟨haa, -⟩ := hheads a ha
      obtain ⟨hba, -, -⟩ := hmem b hb
      rw [haa]
      exact hba

theorem runF_inv (bs T : Nat) (oracle : Nat → Bool) :
    ∀ (n : Nat) (evs : List Event) (t d : Nat) (st : LoopState) (saves : List SavedState),
      evs.length ≤ n →
      RunInv st evs saves (runF bs oracle T n evs t d st saves) := by
  intro n
  induction n with
  | zero =>
    intro evs t d st saves hn
    have h0 : evs = [] := List.length_eq_zero.mp (Nat.le_zero.mp hn)
    subst h0
    exact RunInv.of_id st [] [] saves le_rfl
  | succ n ih =>
    intro evs t d st saves hn
    cases evs with
    | nil => exact RunInv.of_id st [] [] saves le_rfl
    | cons e evs =>
      simp only [List.length_cons] at hn
      by_cases h : T ≤ t + 1
      · rw [runF_flag _ _ _ _ _ _ _ _ _ _ h]
        exact RunInv.of_flag st (e :: evs) evs saves (pagesIn_cons_le e evs)
      · cases e with
        | other =>
          rw [runF_other _ _ _ _ _ _ _ _ _ h]
          refine RunInv.step st st (.other :: evs) evs saves [] _ ?_ (by simp) le_rfl
            (by omega) (by simp [pagesIn]) (by simp)
          simpa using ih evs (t + 1) d st saves (by omega)
        | pageEnd p =>
          cases hp : process_page p with
          | none =>
            rw [runF_invalid _ _ _ _ _ _ _ _ _ _ h hp]
            refine RunInv.step st ⟨st.processed + 1, st.success, st.failed + 1⟩
              (.pageEnd p :: evs) evs saves [] _ ?_ (by simp) (by simp)
              (by simp; omega) (by simp [pagesIn]; omega) (by simp)
            simpa using ih evs (t + 1) d _ saves (by omega)
          | some r =>
            obtain ⟨k, hfb, hk⟩ := fillBatch_eq bs evs [r]
            rw [runF_batch _ _ _ _ _ _ _ _ _ _ _ _ _ _ h hp hfb]
            set batch := [r] ++ validRecs (evs.take k) with hbatch
            set ns := (batchResults oracle d batch.length).count true with hns
            have hnsle : ns ≤ batch.length := by
              rw [hns]
              calc (batchResults oracle d batch.length).count true
                  ≤ (batchResults oracle d batch.length).length := List.count_le_length _ _
                _ = batch.length := batchResults_length _ _ _
            have hLpages : batch.length ≤ 1 + pagesIn (evs.take k) := by
              have := validRecs_length_le (evs.take k)
              simp [hbatch]
              omega
            have hsplit : pagesIn (evs.take k) + pagesIn (evs.drop k) = pagesIn evs := by
              rw [← pagesIn_append, List.take_append_drop]
            set st' : LoopState := ⟨st.processed + batch.length, st.success + ns,
              st.failed + (batch.length - ns)⟩ with hst'
            refine RunInv.step st st' (.pageEnd p :: evs) (evs.drop k) saves
              [⟨st'.processed, st'.success, st'.failed,
                if T ≤ t + 1 + k + 1 then .terminated else .in_progress⟩] _ ?_ (by simp)
              (by simp [hst']) (by simp [hst']; omega)
              (by simp [hst', pagesIn]; omega) ?_
            · exact ih (evs.drop k) _ _ st' _ (by simp; omega)
            · intro sv hsv
              simp only [List.mem_singleton] at hsv
              subst hsv
              exact ⟨rfl, by simp [hst']; omega⟩

theorem run_inv (bs T t d : Nat) (oracle : Nat → Bool) (evs : List Event) (st : LoopState)
    (saves : List SavedState) :
    RunInv st evs saves (run bs oracle T evs t d st saves) :=
  runF_inv bs T oracle evs.length evs t d st saves le_rfl

/-- C1 (amended).  For every run, at every checkpoint save the sum of the
counter increments since the effective resume point equals the position
increment since that point; `position` is monotonically non-decreasing and
never exceeds the resume position plus the number of page elements in the
input.  (As originally stated — counter sum equals the number of page
elements observed, and position bounded by the document's own page count —
the claim fails: see the counterexample, where a page failing validation
while a batch is being filled is consumed but neither counted nor advances
`position`.) -/
theorem spec_C1_amended (bs T t d : Nat) (oracle : Nat → Bool) (evs : List Event)
    (st : LoopState) :
    (∀ sv ∈ (run bs oracle T evs t d st []).saves,
      st.processed ≤ sv.position ∧
      sv.position + st.success + st.failed = sv.success + sv.failed + st.processed ∧
      sv.position ≤ st.processed + pagesIn evs) ∧
    (run bs oracle T evs t d st []).saves.Pairwise (fun a b => a.position ≤ b.position) ∧
    (run bs oracle T evs t d st []).exitCode = 0 := by
  obtain ⟨new, hsaves, hmem, hpw, hfin, hfsum, hfpages, hexit⟩ :=
    run_inv bs T t d oracle evs st []
  rw [List.nil_append] at hsaves
  refine ⟨?_, hsaves ▸ hpw, hexit⟩
  intro sv hsv
  rw [hsaves] at hsv
  obtain ⟨h1, h2, h3⟩ := hmem sv hsv
  exact ⟨h1, h3, by omega⟩

/-- C1 counterexample.  Two page elements, batch size 2, the second page
invalid: the run consumes both pages (`rest = []`), yet the only checkpoint
written has `successCount + failureCount = 1 ≠ 2`: the validation failure
encountered while filling the batch is observed but never counted. -/
theorem spec_C1_counterexample :
    (run 2 (fun _ => true) 1000
      [Event.pageEnd ⟨some ("A"), some ("x")⟩, Event.pageEnd ⟨some ("B"), none⟩]
      0 0 ⟨0, 0, 0⟩ []).rest = [] ∧
    pagesIn [Event.pageEnd ⟨some ("A"), some ("x")⟩, Event.pageEnd ⟨some ("B"), none⟩] = 2 ∧
    ∃ sv ∈ (run 2 (fun _ => true) 1000
      [Event.pageEnd ⟨some ("A"), some ("x")⟩, Event.pageEnd ⟨some ("B"), none⟩]
      0 0 ⟨0, 0, 0⟩ []).saves, ¬ sv.success + sv.failed = 2 := by
  decide

/-- C2 (amended).  After each batch the scheduler advances `position` by the
batch's record count only; the dispatched batch consists of the head record
plus exactly the records of pages that validated while filling the batch, so
a page failing validation during the fill is consumed from the stream but is
neither dispatched to the worker pool, nor counted in the failure counter,
nor does it advance `position`.  (As originally stated — position advanced
by batch count plus fill-time validation failures, failures counted
immediately — the claim fails: see the counterexample.) -/
theorem spec_C2_amended (bs T t d k : Nat) (oracle : Nat → Bool) (p : Page)
    (r : String × String) (evs rest : List Event) (batch : List (String × String))
    (st : LoopState) (saves : List SavedState)
    (h : ¬ T ≤ t + 1) (hp : process_page p = some r)
    (hfb : fillBatch bs [r] evs = (batch, rest, k)) :
    batch = r :: validRecs (evs.take k) ∧
    rest = evs.drop k ∧
    run bs oracle T (.pageEnd p :: evs) t d st saves =
      run bs oracle T rest (t + 1 + k + 1) (d + batch.length)
        ⟨st.processed + batch.length,
         st.success + (batchResults oracle d batch.length).count true,
         st.failed + (batch.length - (batchResults oracle d batch.length).count true)⟩
        (saves ++ [⟨st.processed + batch.length,
          st.success + (batchResults oracle d batch.length).count true,
          st.failed + (batch.length - (batchResults oracle d batch.length).count true),
          if T ≤ t + 1 + k + 1 then .terminated else .in_progress⟩]) := by
  obtain ⟨k', hk', -⟩ := fillBatch_eq bs evs [r]
  rw [hfb] at hk'
  injection hk' with h1 h23
  injection h23 with h2 h3
  subst h3
  refine ⟨by simpa using h1, h2, ?_⟩
  exact run_batch bs T t d oracle p r evs rest batch k st saves h hp hfb

/-- C2 witness: a concrete batch step.  Batch size 3, head page valid, one
valid and one invalid page consumed while filling: the dispatched batch is
the head record plus the one valid record, the stream is fully consumed, and
the loop continues with `position` advanced by 2 (the record count). -/
theorem spec_C2_amended_witness :
    [("A", "x"), ("C", "z")] =
      ("A", "x") :: validRecs (List.take 2
        [Event.pageEnd ⟨some ("B"), none⟩, Event.pageEnd ⟨some ("C"), some ("z")⟩]) ∧
    ([] : List Event) = List.drop 2
      [Event.pageEnd ⟨some ("B"), none⟩, Event.pageEnd ⟨some ("C"), some ("z")⟩] ∧
    run 3 (fun _ => true) 1000
      (.pageEnd ⟨some ("A"), some ("x")⟩ ::
        [Event.pageEnd ⟨some ("B"), none⟩, Event.pageEnd ⟨some ("C"), some ("z")⟩])
      0 0 ⟨0, 0, 0⟩ [] =
    run 3 (fun _ => true) 1000 [] (0 + 1 + 2 + 1) (0 + 2)
      ⟨0 + 2, 0 + (batchResults (fun _ => true) 0 2).count true,
       0 + (2 - (batchResults (fun _ => true) 0 2).count true)⟩
      ([] ++ [⟨0 + 2, 0 + (batchResults (fun _ => true) 0 2).count true,
        0 + (2 - (batchResults (fun _ => true) 0 2).count true),
        if (1000 : Nat) ≤ 0 + 1 + 2 + 1 then .terminated else .in_progress⟩]) :=
  spec_C2_amended 3 1000 0 0 2 (fun _ => true) ⟨some ("A"), some ("x")⟩ ("A", "x")
    [Event.pageEnd ⟨some ("B"), none⟩, Event.pageEnd ⟨some ("C"), some ("z")⟩]
    [] [("A", "x"), ("C", "z")] ⟨0, 0, 0⟩ [] (by decide) (by decide) (by decide)

/-- C2 counterexample.  Batch size 3, a valid head page and one page failing
validation while the batch is filled: the claim predicts the checkpoint after
the batch records `position = 2` (one record plus one fill-time validation
failure) and `failureCount = 1` (counted immediately); the code writes
`position = 1`, `failureCount = 0`. -/
theorem spec_C2_counterexample :
    ((run 3 (fun _ => true) 1000
      [Event.pageEnd ⟨some ("A"), some ("x")⟩, Event.pageEnd ⟨some ("B"), none⟩]
      0 0 ⟨0, 0, 0⟩ []).saves.map (fun sv => (sv.position, sv.failed))) = [(1, 0)] ∧
    ((1, 0) : Nat × Nat) ≠ (2, 1) := by
  decide

/-- C3 (amended).  For every page element, the Stream Reader produces a
PageRecord iff both the title field and the revision-text field are present
(non-null); the produced record carries the trimmed field values (presence,
not non-emptiness after trimming, is what is checked).  A page producing no
record is counted as a failure and advances `position` when it is
encountered at the top of the outer read loop. -/
theorem spec_C3_amended :
    (∀ e : Page, (process_page e).isSome = (e.title.isSome && e.text.isSome)) ∧
    (∀ t x : String, process_page ⟨some t, some x⟩ = some (pyStrip t, pyStrip x)) ∧
    (∀ (bs T t d : Nat) (oracle : Nat → Bool) (p : Page) (evs : List Event)
      (st : LoopState) (saves : List SavedState),
      ¬ T ≤ t + 1 → process_page p = none →
      run bs oracle T (.pageEnd p :: evs) t d st saves =
        run bs oracle T evs (t + 1) d
          ⟨st.processed + 1, st.success, st.failed + 1⟩ saves) := by
  refine ⟨?_, fun t x => rfl, fun bs T t d oracle p evs st saves h hp =>
    run_invalid bs T t d oracle p evs st saves h hp⟩
  intro e
  cases e with
  | mk title text => cases title <;> cases text <;> simp [process_page]

/-- C3 witness: the amended claim applied to a concrete invalid page at the
head of the outer loop (missing revision text): no record is produced, and
the loop continues with `failed` and `position` each advanced by one. -/
theorem spec_C3_amended_witness :
    run 2 (fun _ => true) 1000 [Event.pageEnd ⟨some ("B"), none⟩] 0 0 ⟨0, 0, 0⟩ [] =
      run 2 (fun _ => true) 1000 [] (0 + 1) 0 ⟨0 + 1, 0, 0 + 1⟩ [] :=
  spec_C3_amended.2.2 2 1000 0 0 (fun _ => true) ⟨some ("B"), none⟩ [] ⟨0, 0, 0⟩ []
    (by decide) (by decide)

/-- C3 counterexample.  A page whose title element carries only whitespace:
the title is present but empty after trimming, yet `process_page` still
produces a record (with empty trimmed title), contradicting the claim that a
record is produced only when both fields are non-empty after trimming. -/
theorem spec_C3_counterexample : ¬ claimC3_spec ⟨some (" "), some ("x")⟩ := by
  unfold claimC3_spec
  decide

/-- C5 (confirmed).  If the cancellation flag is set while a batch is
executing (after the batch was filled, by the time its barrier completes),
that batch runs to completion and its results are fully counted, the
checkpoint written after the barrier carries `status = terminated`, the
process exits with code 0, and no page element is processed after the flag
is observed: at most one further event is pulled (the one whose
top-of-loop check observes the flag, writing one more terminated
checkpoint), the final counters are exactly the post-batch counters, and
the rest of the stream is left unconsumed. -/
theorem spec_C5 (bs T t d k ns : Nat) (oracle : Nat → Bool) (p : Page)
    (r : String × String) (evs rest : List Event) (batch : List (String × String))
    (st st' : LoopState) (saves : List SavedState)
    (hp : process_page p = some r)
    (hfb : fillBatch bs [r] evs = (batch, rest, k))
    (hlo : t + 1 + k < T) (hhi : T ≤ t + 1 + k + 1)
    (hns : ns = (batchResults oracle d batch.length).count true)
    (hst' : st' = ⟨st.processed + batch.length, st.success + ns,
      st.failed + (batch.length - ns)⟩) :
    run bs oracle T (.pageEnd p :: evs) t d st saves =
      ⟨saves ++ ⟨st'.processed, st'.success, st'.failed, .terminated⟩ ::
        (if rest.isEmpty then ([] : List SavedState)
         else [⟨st'.processed, st'.success, st'.failed, .terminated⟩]),
       0, rest.drop 1, st'⟩ := by
  have h1 : ¬ T ≤ t + 1 := by omega
  rw [run_batch bs T t d oracle p r evs rest batch k st saves h1 hp hfb]
  rw [if_pos hhi]
  subst hns hst'
  cases rest with
  | nil => rw [run_nil]; simp
  | cons e' rest2 =>
    rw [run_flag _ _ _ _ _ _ _ _ _ (by omega)]
    simp

/-- C5 witness: three valid pages, batch size 2, the flag set at tick 3
(while the first batch is executing).  The batch of two completes, two
checkpoints with `status = terminated` and `position = 2` are written, the
exit code is 0, and the third page is never processed. -/
theorem spec_C5_witness :
    run 2 (fun _ => true) 3
      (.pageEnd ⟨some ("A"), some ("x")⟩ ::
        [Event.pageEnd ⟨some ("B"), some ("y")⟩, Event.pageEnd ⟨some ("C"), some ("z")⟩])
      0 0 ⟨0, 0, 0⟩ [] =
    ⟨[] ++ ⟨2, 2, 0, .terminated⟩ ::
      (if ([Event.pageEnd ⟨some ("C"), some ("z")⟩] : List Event).isEmpty
       then ([] : List SavedState) else [⟨2, 2, 0, .terminated⟩]),
     0, ([Event.pageEnd ⟨some ("C"), some ("z")⟩] : List Event).drop 1, ⟨2, 2, 0⟩⟩ :=
  spec_C5 2 3 0 0 1 2 (fun _ => true) ⟨some ("A"), some ("x")⟩ ("A", "x")
    [Event.pageEnd ⟨some ("B"), some ("y")⟩, Event.pageEnd ⟨some ("C"), some ("z")⟩]
    [Event.pageEnd ⟨some ("C"), some ("z")⟩] [("A", "x"), ("B", "y")]
    ⟨0, 0, 0⟩ ⟨2, 2, 0⟩ [] (by decide) (by decide) (by decide) (by decide)
    (by decide) (by decide)

/-- C9 (confirmed).  A run with no usable checkpoint over exactly 3 valid
page elements with batch size 2, every conversion and write succeeding:
after the run `position = 3`, `successCount = 3`, `failureCount = 0`, the
exit code is 0, and exactly two checkpoint writes occur — one after the
first batch of 2 (position 2) and one after the final, smaller batch of 1
(position 3), which is still dispatched and checkpointed. -/
theorem spec_C9 :
    run 2 (fun _ => true) 1000
      [Event.other, Event.pageEnd ⟨some ("A"), some ("x")⟩, Event.other,
       Event.pageEnd ⟨some ("B"), some ("y")⟩, Event.pageEnd ⟨some ("C"), some ("z")⟩,
       Event.other]
      0 0 ⟨0, 0, 0⟩ [] =
    ⟨[⟨2, 2, 0, .in_progress⟩, ⟨3, 3, 0, .in_progress⟩], 0, [], ⟨3, 3, 0⟩⟩ ∧
    pagesIn
      [Event.other, Event.pageEnd ⟨some ("A"), some ("x")⟩, Event.other,
       Event.pageEnd ⟨some ("B"), some ("y")⟩, Event.pageEnd ⟨some ("C"), some ("z")⟩,
       Event.other] = 3 := by
  decide

/-- C4 (confirmed).  Checkpoint load returns the default state — position
equal to the resume-from argument, both counters zero, and the next save
records `status = in_progress` when cancellation has not been requested —
whenever the durable record is absent (FileNotFoundError) or unreadable or
corrupt (not decodable as JSON, json.JSONDecodeError); both conditions are
recoverable (`.ok`), never fatal to the run. -/
theorem spec_C4 : ∀ r : Int,
    resume_init .absent r = .ok (.jnum r, .jnum 0, .jnum 0) ∧
    resume_init .undecodable r = .ok (.jnum r, .jnum 0, .jnum 0) ∧
    ∀ (p s f : Nat) (ts : String),
      jget ("status") (save_json p s f false ts) = .ok (.jstr ("in_progress")) := by
  intro r
  exact ⟨rfl, rfl, fun p s f ts => rfl⟩

/-- C10 (confirmed).  Whenever the checkpoint file parses as JSON into a
record of the shape written by `save_state`, its saved position and counters
are adopted regardless of the saved status field: a checkpoint persisted
with `status = terminated` by a cancelled run is resumed from exactly like
one with `status = in_progress`, and the `--resume-from` argument is ignored
in that case. -/
theorem spec_C10 : ∀ (p s f : Nat) (shouldExit : Bool) (ts : String) (r : Int),
    resume_init (.decoded (save_json p s f shouldExit ts)) r =
      .ok (.jnum p, .jnum s, .jnum f) := by
  intro p s f se ts r
  rfl

/-- C6 (confirmed).  The conversion invoker returns a non-success result
exactly when the external renderer exits with non-zero status, exceeds the
wall-clock timeout, or produces empty output (the empty-output case is
rejected by the caller's `if not converted` check), and the scoped temporary
file is unlinked on every exit path — success, failure and timeout. -/
theorem spec_C6 : ∀ o : RenderOutcome,
    (conversion_failed o = true ↔
      (o = .timesOut ∨ ∃ c out err, o = .completes c out err ∧ (c ≠ 0 ∨ out = ""))) ∧
    FsAction.unlinkTemp ∈ convert_actions o := by
  intro o
  cases o with
  | timesOut => simp [conversion_failed, convert_to_markdown, convert_actions]
  | completes c out err =>
    refine ⟨?_, by simp [convert_actions]⟩
    by_cases hc : c = 0
    · subst hc
      simp only [conversion_failed, convert_to_markdown]
      simp
      constructor
      · intro h
        exact ⟨0, out, ⟨rfl, rfl⟩, Or.inr h⟩
      · rintro ⟨c1, o1, ⟨hc1, ho1⟩, hor⟩
        subst ho1
        rcases hor with h | h
        · exact absurd hc1.symm h
        · exact h
    · simp [conversion_failed, convert_to_markdown, hc]
      exact ⟨c, out, ⟨rfl, rfl⟩, Or.inl hc⟩

theorem dropPref_some : ∀ (p l r : Str), dropPref p l = some r → l = p ++ r := by
  intro p
  induction p with
  | nil =>
    intro l r h
    simp [dropPref] at h
    simp [h]
  | cons a p ih =>
    intro l r h
    cases l with
    | nil => simp [dropPref] at h
    | cons c cs =>
      simp only [dropPref] at h
      by_cases hca : c = a
      · rw [if_pos hca] at h
        subst hca
        simpa using ih cs r h
      · rw [if_neg hca] at h
        exact absurd h (by simp)

theorem dropPref_append (p r : Str) : dropPref p (p ++ r) = some r := by
  induction p with
  | nil => rfl
  | cons a p ih => simp [dropPref, ih]

theorem substF_congr (tm : Str → Option (Str × Str)) (hdec : Consuming tm) :
    ∀ (n m : Nat) (l : Str), l.length ≤ n → l.length ≤ m →
      substF tm n l = substF tm m l := by
  intro n
  induction n with
  | zero =>
    intro m l hn _
    have h0 : l = [] := List.length_eq_zero.mp (Nat.le_zero.mp hn)
    subst h0
    cases m <;> rfl
  | succ n ih =>
    intro m l hn hm
    cases l with
    | nil => cases m <;> rfl
    | cons c cs =>
      obtain ⟨m', rfl⟩ : ∃ m', m = m' + 1 := ⟨m - 1, by simp at hm; omega⟩
      simp only [List.length_cons] at hn hm
      simp only [substF]
      cases h : tm (c :: cs) with
      | none =>
        dsimp only
        rw [ih m' cs (by omega) (by omega)]
      | some res =>
        have hlt := hdec _ _ h
        simp only [List.length_cons] at hlt
        dsimp only
        rw [ih m' res.2 (by omega) (by omega)]

theorem subst_cons_none (tm : Str → Option (Str × Str)) (c : Char) (l : Str)
    (h : tm (c :: l) = none) : subst tm (c :: l) = c :: subst tm l := by
  simp only [subst, List.length_cons, substF, h]

theorem subst_cons_some (tm : Str → Option (Str × Str)) (hdec : Consuming tm)
    (c : Char) (l : Str) (res : Str × Str) (h : tm (c :: l) = some res) :
    subst tm (c :: l) = res.1 ++ subst tm res.2 := by
  have hlt := hdec _ _ h
  simp only [List.length_cons] at hlt
  simp only [subst, List.length_cons, substF, h]
  rw [substF_congr tm hdec l.length res.2.length res.2 (by omega) le_rfl]

theorem subst_eq_self (tm : Str → Option (Str × Str)) :
    ∀ (l : Str), (∀ l', l' ≠ [] → l' <:+ l → tm l' = none) → subst tm l = l := by
  intro l
  induction l with
  | nil => intro _; rfl
  | cons c cs ih =>
    intro h
    rw [subst_cons_none tm c cs (h (c :: cs) (by simp) (by exact List.suffix_rfl))]
    rw [ih (fun l' h1 h2 => h l' h1 (h2.trans (List.suffix_cons c cs)))]

theorem subst_block (tm : Str → Option (Str × Str)) (P : Str) (cc : Char)
    (hpre : ∀ l res, tm l = some res → P <+: l) (hcc : cc ∈ P) :
    ∀ (l : Str), cc ∉ l → subst tm l = l := by
  intro l hni
  apply subst_eq_self
  intro l' _ hsuf
  cases htm : tm l' with
  | none => rfl
  | some res =>
    exact absurd (hsuf.subset ((hpre l' res htm).subset hcc)) hni

theorem subst_skip (tm : Str → Option (Str × Str)) (a : Char)
    (hhead : ∀ l res, tm l = some res → l.head? = some a) :
    ∀ (x y : Str), a ∉ x → subst tm (x ++ y) = x ++ subst tm y := by
  intro x
  induction x with
  | nil => simp
  | cons c cs ih =>
    intro y hax
    have hcc : tm (c :: (cs ++ y)) = none := by
      cases htm : tm (c :: (cs ++ y)) with
      | none => rfl
      | some res =>
        have hh := hhead _ _ htm
        simp only [List.head?] at hh
        injection hh with hh
        exact absurd (hh ▸ List.mem_cons_self c cs) hax
    rw [List.cons_append, subst_cons_none tm _ _ hcc,
      ih y (fun hmem => hax (List.mem_cons_of_mem c hmem)), List.cons_append]

theorem subst_match (tm : Str → Option (Str × Str)) (hdec : Consuming tm)
    (x y r : Str) (hx : x ≠ []) (h : tm (x ++ y) = some (r, y)) :
    subst tm (x ++ y) = r ++ subst tm y := by
  cases x with
  | nil => exact absurd rfl hx
  | cons c cs =>
    rw [List.cons_append] at h ⊢
    exact subst_cons_some tm hdec c (cs ++ y) (r, y) h

theorem matchCore_pre (P : Str) (stop : Char) (Q : Str) (f : Str → Str) :
    ∀ l res, matchCore P stop Q f l = some res → P <+: l := by
  intro l res h
  simp only [matchCore] at h
  split at h
  · simp at h
  · next r heq => exact ⟨r, (dropPref_some P l r heq).symm⟩

theorem matchCore_consuming (P : Str) (stop : Char) (Q : Str) (f : Str → Str)
    (hP : P ≠ []) : Consuming (matchCore P stop Q f) := by
  intro l res h
  simp only [matchCore] at h
  split at h
  · simp at h
  · next r heqd =>
    split at h
    · simp at h
    · split at h
      · simp at h
      · next rest heqq =>
        injection h with h1
        have hl := dropPref_some P l r heqd
        have hdw := dropPref_some Q _ rest heqq
        have hsuf : r.dropWhile (fun c => c != stop) <:+ r := List.dropWhile_suffix _
        rw [hdw] at hsuf
        have hlen : (Q ++ rest).length ≤ r.length := hsuf.length_le
        subst hl
        rw [← h1]
        simp only [List.length_append] at hlen ⊢
        have hp1 : 1 ≤ P.length := by
          cases P with
          | nil => exact absurd rfl hP
          | cons a ps => simp
        omega

theorem rule2_pre : ∀ l res, tryRule2 l = some res → ("|-").data <+: l := by
  intro l res h
  simp only [tryRule2] at h
  split at h
  · simp at h
  · next r heq => exact ⟨r, (dropPref_some _ l r heq).symm⟩

theorem rule2_consuming : Consuming tryRule2 := by
  intro l res h
  simp only [tryRule2] at h
  split at h
  · simp at h
  · next r heq =>
    split at h
    · injection h with h1
      rw [← h1]
      have hl := dropPref_some _ l r heq
      subst hl
      simp
    · simp at h

theorem rule3_pre : ∀ l res, tryRule3 l = some res → pat3 <+: l := by
  intro l res h
  simp only [tryRule3] at h
  split at h
  · simp at h
  · next r heq => exact ⟨r, (dropPref_some _ l r heq).symm⟩

theorem rule3_consuming : Consuming tryRule3 := by
  intro l res h
  simp only [tryRule3] at h
  split at h
  · simp at h
  · next r heq =>
    injection h with h1
    rw [← h1]
    have hl := dropPref_some _ l r heq
    subst hl
    simp [pat3]
    omega

theorem tryRef_pre (q : Char) : ∀ l res, tryRef q l = some res → refOpen q <+: l := by
  intro l res h
  simp only [tryRef] at h
  split at h
  · simp at h
  · next r heq => exact ⟨r, (dropPref_some _ l r heq).symm⟩

theorem tryRef_consuming (q : Char) : Consuming (tryRef q) := by
  intro l res h
  simp only [tryRef] at h
  split at h
  · simp at h
  · next r heqd =>
    split at h
    · simp at h
    · split at h
      · simp at h
      · next r2 heq2 =>
        split at h
        · simp at h
        · next rest heq3 =>
          injection h with h1
          have hl := dropPref_some _ l r heqd
          have hd2 := dropPref_some _ _ r2 heq2
          have hd3 := dropPref_some _ _ rest heq3
          have hs2 : r.dropWhile (fun c => c != q) <:+ r := List.dropWhile_suffix _
          rw [hd2] at hs2
          have hs3 : r2.dropWhile pyWs <:+ r2 := List.dropWhile_suffix _
          rw [hd3] at hs3
          have hlen2 := hs2.length_le
          have hlen3 := hs3.length_le
          subst hl
          rw [← h1]
          simp only [List.length_append, List.length_cons] at hlen2 hlen3 ⊢
          simp only [refOpen, List.length_append] at *
          omega

theorem linkScan_decomp :
    ∀ (l : Str) (res : Str × Str), linkScan l = some res →
      l = res.1 ++ ']' :: ']' :: res.2 ∧ res.1 ≠ [] := by
  intro l
  induction l with
  | nil => intro res h; simp [linkScan] at h
  | cons c rest ih =>
    intro res h
    simp only [linkScan] at h
    split at h
    · simp at h
    · split at h
      · next r2 =>
        injection h with h1
        rw [← h1]
        exact ⟨rfl, by simp⟩
      · split at h
        · next res' hls =>
          injection h with h1
          obtain ⟨hdec', hne'⟩ := ih res' hls
          rw [← h1]
          constructor
          · simp only [List.cons_append]
            rw [← hdec']
          · simp
        · simp at h

theorem rule10_pre : ∀ l res, tryRule10 l = some res → ("[[").data <+: l := by
  intro l res h
  simp only [tryRule10] at h
  split at h
  · simp at h
  · next r heq => exact ⟨r, (dropPref_some _ l r heq).symm⟩

theorem rule10_consuming : Consuming tryRule10 := by
  intro l res h
  simp only [tryRule10] at h
  split at h
  · simp at h
  · next r heq =>
    split at h
    · next res' hls =>
      injection h with h1
      obtain ⟨hdec', -⟩ := linkScan_decomp r res' hls
      have hl := dropPref_some _ l r heq
      subst hl
      rw [← h1, hdec']
      simp
      omega
    · simp at h

theorem rule1_consuming : Consuming tryRule1 :=
  matchCore_consuming pat1 dquo [dquo] rep1 (by simp [pat1])

theorem rule4_consuming : Consuming tryRule4 :=
  matchCore_consuming pat4 dquo [dquo, rbr, dquo] _ (by simp [pat4])

theorem rule5_consuming : Consuming tryRule5 :=
  matchCore_consuming pat5 rbr [rbr, rbr] rep5 (by simp [pat5])

theorem rule6_consuming : Consuming tryRule6 :=
  matchCore_consuming pat6 rbr [rbr, rbr] _ (by simp [pat6])

theorem rule7_consuming : Consuming tryRule7 := tryRef_consuming dquo

theorem rule8_consuming : Consuming tryRule8 := tryRef_consuming squo

theorem rule9_consuming : Consuming tryRule9 :=
  matchCore_consuming [lbr, lbr] rbr [rbr, rbr] _ (by simp)

theorem head_of_pre (P : Str) (a : Char) (l : Str) (hP : P.head? = some a)
    (hpl : P <+: l) : l.head? = some a := by
  obtain ⟨t, rfl⟩ := hpl
  cases P with
  | nil => simp at hP
  | cons p ps => simpa using hP

theorem plain_ne (c : Char) (h : plainChar c = true) :
    c ≠ lbr ∧ c ≠ rbr ∧ c ≠ '<' ∧ c ≠ '>' ∧ c ≠ '[' ∧ c ≠ ']' ∧ c ≠ '|' ∧
      c ≠ dquo ∧ c ≠ squo ∧ c ≠ '-' := by
  simp only [plainChar, Bool.and_eq_true, bne_iff_ne] at h
  tauto

theorem not_mem_of_plain (a : Char) (ha : plainChar a = false) :
    ∀ (t : Str), (∀ c ∈ t, plainChar c = true) → a ∉ t := by
  intro t ht hmem
  rw [ht a hmem] at ha
  exact Bool.noConfusion ha

theorem takeWhile_append_stop (p : Char → Bool) :
    ∀ (t : Str) (b : Char) (y : Str), (∀ c ∈ t, p c = true) → p b = false →
      (t ++ b :: y).takeWhile p = t ∧ (t ++ b :: y).dropWhile p = b :: y := by
  intro t
  induction t with
  | nil =>
    intro b y _ hb
    simp [List.takeWhile_cons, List.dropWhile_cons, hb]
  | cons c t ih =>
    intro b y ht hb
    have hc := ht c (List.mem_cons_self c t)
    obtain ⟨ih1, ih2⟩ := ih b y (fun x hx => ht x (List.mem_cons_of_mem c hx)) hb
    simp [List.takeWhile_cons, List.dropWhile_cons, hc, ih1, ih2]

theorem rule5_head : ∀ l res, tryRule5 l = some res → l.head? = some lbr :=
  fun l res h => head_of_pre pat5 lbr l rfl (matchCore_pre pat5 rbr [rbr, rbr] rep5 l res h)

theorem rule7_head : ∀ l res, tryRule7 l = some res → l.head? = some '<' :=
  fun l res h => head_of_pre (refOpen dquo) '<' l rfl (tryRef_pre dquo l res h)

theorem rule8_head : ∀ l res, tryRule8 l = some res → l.head? = some '<' :=
  fun l res h => head_of_pre (refOpen squo) '<' l rfl (tryRef_pre squo l res h)

theorem renderWith_not_mem (g : Construct → Str) (a : Char)
    (hg : ∀ k, k.WF → a ∉ g k) :
    ∀ (cs : List Construct), (∀ k ∈ cs, k.WF) → a ∉ renderWith g cs := by
  intro cs
  induction cs with
  | nil => intro _; simp [renderWith]
  | cons k ks ih =>
    intro hwf
    simp only [renderWith, List.mem_append]
    push_neg
    exact ⟨hg k (hwf k (List.mem_cons_self k ks)),
      ih (fun x hx => hwf x (List.mem_cons_of_mem k hx))⟩

theorem dash_not_mem_render (k : Construct) (hk : k.WF) : '-' ∉ k.render := by
  cases k with
  | shortDesc t =>
    obtain ⟨-, htpl⟩ := hk
    simp only [Construct.render, List.mem_append]
    push_neg
    exact ⟨⟨by decide, not_mem_of_plain '-' (by decide) t htpl⟩, by decide⟩
  | refD n =>
    obtain ⟨-, hnpl⟩ := hk
    simp only [Construct.render, List.mem_append]
    push_neg
    exact ⟨⟨by decide, not_mem_of_plain '-' (by decide) n hnpl⟩, by decide⟩
  | refS n =>
    obtain ⟨-, hnpl⟩ := hk
    simp only [Construct.render, List.mem_append]
    push_neg
    exact ⟨⟨by decide, not_mem_of_plain '-' (by decide) n hnpl⟩, by decide⟩
  | filler f => exact not_mem_of_plain '-' (by decide) f hk

theorem meta_not_mem_renderA (a : Char) (ha : plainChar a = false)
    (h1 : a ∉ ("<!-- Short description: ").data) (h2 : a ∉ (" -->").data)
    (h5 : a ∉ refOpen dquo) (h6 : a ∉ refOpen squo)
    (h7 : a ∉ dquo :: '>' :: ("</ref>").data)
    (h8 : a ∉ squo :: '>' :: ("</ref>").data) :
    ∀ (k : Construct), k.WF → a ∉ k.renderA := by
  intro k hk
  cases k with
  | shortDesc t =>
    obtain ⟨-, htpl⟩ := hk
    simp only [Construct.renderA, rep5, List.mem_append]
    push_neg
    exact ⟨⟨h1, not_mem_of_plain a ha t htpl⟩, h2⟩
  | refD n =>
    obtain ⟨-, hnpl⟩ := hk
    simp only [Construct.renderA, Construct.render, List.mem_append]
    push_neg
    exact ⟨⟨h5, not_mem_of_plain a ha n hnpl⟩, h7⟩
  | refS n =>
    obtain ⟨-, hnpl⟩ := hk
    simp only [Construct.renderA, Construct.render, List.mem_append]
    push_neg
    exact ⟨⟨h6, not_mem_of_plain a ha n hnpl⟩, h8⟩
  | filler f => exact not_mem_of_plain a ha f hk

theorem meta_not_mem_renderB (a : Char) (ha : plainChar a = false)
    (h1 : a ∉ ("<!-- Short description: ").data) (h2 : a ∉ (" -->").data)
    (h3 : a ∉ ("<!--ref ").data) (h4 : a ∉ ("-->").data)
    (h6 : a ∉ refOpen squo) (h8 : a ∉ squo :: '>' :: ("</ref>").data) :
    ∀ (k : Construct), k.WF → a ∉ k.renderB := by
  intro k hk
  cases k with
  | shortDesc t =>
    obtain ⟨-, htpl⟩ := hk
    simp only [Construct.renderB, rep5, List.mem_append]
    push_neg
    exact ⟨⟨h1, not_mem_of_plain a ha t htpl⟩, h2⟩
  | refD n =>
    obtain ⟨-, hnpl⟩ := hk
    simp only [Construct.renderB, refComment, List.mem_append]
    push_neg
    exact ⟨⟨h3, not_mem_of_plain a ha n hnpl⟩, h4⟩
  | refS n =>
    obtain ⟨-, hnpl⟩ := hk
    simp only [Construct.renderB, Construct.render, List.mem_append]
    push_neg
    exact ⟨⟨h6, not_mem_of_plain a ha n hnpl⟩, h8⟩
  | filler f => exact not_mem_of_plain a ha f hk

theorem meta_not_mem_renderC (a : Char) (ha : plainChar a = false)
    (h1 : a ∉ ("<!-- Short description: ").data) (h2 : a ∉ (" -->").data)
    (h3 : a ∉ ("<!--ref ").data) (h4 : a ∉ ("-->").data) :
    ∀ (k : Construct), k.WF → a ∉ k.renderC := by
  intro k hk
  cases k with
  | shortDesc t =>
    obtain ⟨-, htpl⟩ := hk
    simp only [Construct.renderC, rep5, List.mem_append]
    push_neg
    exact ⟨⟨h1, not_mem_of_plain a ha t htpl⟩, h2⟩
  | refD n =>
    obtain ⟨-, hnpl⟩ := hk
    simp only [Construct.renderC, refComment, List.mem_append]
    push_neg
    exact ⟨⟨h3, not_mem_of_plain a ha n hnpl⟩, h4⟩
  | refS n =>
    obtain ⟨-, hnpl⟩ := hk
    simp only [Construct.renderC, refComment, List.mem_append]
    push_neg
    exact ⟨⟨h3, not_mem_of_plain a ha n hnpl⟩, h4⟩
  | filler f => exact not_mem_of_plain a ha f hk

theorem rule5_match (t y : Str) (htne : t ≠ []) (htpl : ∀ c ∈ t, plainChar c = true) :
    tryRule5 (pat5 ++ (t ++ rbr :: rbr :: y)) = some (rep5 t, y) := by
  have h1 : dropPref pat5 (pat5 ++ (t ++ rbr :: rbr :: y)) = some (t ++ rbr :: rbr :: y) :=
    dropPref_append _ _
  obtain ⟨h2, h3⟩ := takeWhile_append_stop (fun c => c != rbr) t rbr (rbr :: y)
    (fun c hc => by
      simp only [bne_iff_ne, ne_eq]
      exact (plain_ne c (htpl c hc)).2.1)
    (by simp)
  simp only [tryRule5, matchCore, h1, h2, h3]
  cases t with
  | nil => exact absurd rfl htne
  | cons t0 ts =>
    dsimp only
    simp [dropPref]

theorem stage5 : ∀ (cs : List Construct), (∀ k ∈ cs, k.WF) →
    subst tryRule5 (renderAll cs) = renderWith Construct.renderA cs := by
  intro cs
  induction cs with
  | nil => intro _; rfl
  | cons k ks ih =>
    intro hwf
    have hk := hwf k (List.mem_cons_self k ks)
    have hks : ∀ x ∈ ks, x.WF := fun x hx => hwf x (List.mem_cons_of_mem k hx)
    have hlbrA : ∀ x : Construct, x.WF → lbr ∉ x.renderA :=
      meta_not_mem_renderA lbr (by decide) (by decide) (by decide) (by decide)
        (by decide) (by decide) (by decide)
    cases k with
    | shortDesc t =>
      obtain ⟨htne, htpl⟩ := hk
      have hm : tryRule5 ((pat5 ++ t ++ [rbr, rbr]) ++ renderAll ks)
          = some (rep5 t, renderAll ks) := by
        have hr := rule5_match t (renderAll ks) htne htpl
        simpa [List.append_assoc] using hr
      show subst tryRule5 ((pat5 ++ t ++ [rbr, rbr]) ++ renderAll ks) = _
      rw [subst_match tryRule5 rule5_consuming _ _ _ (by simp [pat5]) hm]
      rw [ih hks]
      rfl
    | refD n =>
      show subst tryRule5 (Construct.render (.refD n) ++ renderAll ks) = _
      rw [subst_skip tryRule5 lbr rule5_head _ _
        (show lbr ∉ (Construct.refD n).render from hlbrA (.refD n) hk)]
      rw [ih hks]
      rfl
    | refS n =>
      show subst tryRule5 (Construct.render (.refS n) ++ renderAll ks) = _
      rw [subst_skip tryRule5 lbr rule5_head _ _
        (show lbr ∉ (Construct.refS n).render from hlbrA (.refS n) hk)]
      rw [ih hks]
      rfl
    | filler f =>
      show subst tryRule5 (Construct.render (.filler f) ++ renderAll ks) = _
      rw [subst_skip tryRule5 lbr rule5_head _ _
        (show lbr ∉ (Construct.filler f).render from hlbrA (.filler f) hk)]
      rw [ih hks]
      rfl

theorem rule7_bang (rest : Str) : tryRule7 ('<' :: '!' :: rest) = none := rfl

theorem rule7_slash (rest : Str) : tryRule7 ('<' :: '/' :: rest) = none := rfl

theorem rule7_at_squo (rest : Str) :
    tryRule7 ('<' :: 'r' :: 'e' :: 'f' :: ' ' :: 'n' :: 'a' :: 'm' :: 'e' :: '=' ::
      squo :: rest) = none := rfl

theorem rule8_bang (rest : Str) : tryRule8 ('<' :: '!' :: rest) = none := rfl

theorem rule8_slash (rest : Str) : tryRule8 ('<' :: '/' :: rest) = none := rfl

theorem rule8_at_dquo (rest : Str) :
    tryRule8 ('<' :: 'r' :: 'e' :: 'f' :: ' ' :: 'n' :: 'a' :: 'm' :: 'e' :: '=' ::
      dquo :: rest) = none := rfl

theorem rule7_match (n y : Str) (hne : n ≠ []) (hnpl : ∀ c ∈ n, plainChar c = true) :
    tryRule7 (refOpen dquo ++ (n ++ dquo :: '>' :: (("</ref>").data ++ y)))
      = some (refComment n, y) := by
  have h1 : dropPref (refOpen dquo)
      (refOpen dquo ++ (n ++ dquo :: '>' :: (("</ref>").data ++ y)))
      = some (n ++ dquo :: '>' :: (("</ref>").data ++ y)) := dropPref_append _ _
  obtain ⟨h2, h3⟩ := takeWhile_append_stop (fun c => c != dquo) n dquo
    ('>' :: (("</ref>").data ++ y))
    (fun c hc => by
      simp only [bne_iff_ne, ne_eq]
      exact (plain_ne c (hnpl c hc)).2.2.2.2.2.2.2.1)
    (by simp)
  have h6 : dropPref [dquo, '>'] (dquo :: '>' :: (("</ref>").data ++ y))
      = some ((("</ref>").data ++ y)) := by simp [dropPref]
  have h4 : ((("</ref>").data ++ y)).dropWhile pyWs = ("</ref>").data ++ y := rfl
  have h5 : dropPref (("</ref>").data) ((("</ref>").data ++ y)) = some y :=
    dropPref_append _ _
  simp only [tryRule7, tryRef, h1, h2, h3, h6, h4, h5]
  cases n with
  | nil => exact absurd rfl hne
  | cons n0 ns =>
    dsimp only
    simp [refComment]

theorem rule8_match (n y : Str) (hne : n ≠ []) (hnpl : ∀ c ∈ n, plainChar c = true) :
    tryRule8 (refOpen squo ++ (n ++ squo :: '>' :: (("</ref>").data ++ y)))
      = some (refComment n, y) := by
  have h1 : dropPref (refOpen squo)
      (refOpen squo ++ (n ++ squo :: '>' :: (("</ref>").data ++ y)))
      = some (n ++ squo :: '>' :: (("</ref>").data ++ y)) := dropPref_append _ _
  obtain ⟨h2, h3⟩ := takeWhile_append_stop (fun c => c != squo) n squo
    ('>' :: (("</ref>").data ++ y))
    (fun c hc => by
      simp only [bne_iff_ne, ne_eq]
      exact (plain_ne c (hnpl c hc)).2.2.2.2.2.2.2.2.1)
    (by simp)
  have h6 : dropPref [squo, '>'] (squo :: '>' :: (("</ref>").data ++ y))
      = some ((("</ref>").data ++ y)) := by simp [dropPref]
  have h4 : ((("</ref>").data ++ y)).dropWhile pyWs = ("</ref>").data ++ y := rfl
  have h5 : dropPref (("</ref>").data) ((("</ref>").data ++ y)) = some y :=
    dropPref_append _ _
  simp only [tryRule8, tryRef, h1, h2, h3, h6, h4, h5]
  cases n with
  | nil => exact absurd rfl hne
  | cons n0 ns =>
    dsimp only
    simp [refComment]

theorem skip7_rep5 (t y : Str) (htpl : ∀ c ∈ t, plainChar c = true) :
    subst tryRule7 (rep5 t ++ y) = rep5 t ++ subst tryRule7 y := by
  have hmid : '<' ∉ ("!-- Short description: ").data ++ t ++ (" -->").data := by
    simp only [List.mem_append, not_or]
    exact ⟨⟨by decide, not_mem_of_plain '<' (by decide) t htpl⟩, by decide⟩
  have e1 : rep5 t ++ y
      = '<' :: (((("!-- Short description: ").data ++ t ++ (" -->").data)) ++ y) := by
    simp [rep5, List.append_assoc]
  have hnone : tryRule7
      ('<' :: (((("!-- Short description: ").data ++ t ++ (" -->").data)) ++ y)) = none :=
    rule7_bang _
  rw [e1, subst_cons_none _ _ _ hnone,
    subst_skip tryRule7 '<' rule7_head _ _ hmid]
  simp [rep5, List.append_assoc]

theorem skip8_rep5 (t y : Str) (htpl : ∀ c ∈ t, plainChar c = true) :
    subst tryRule8 (rep5 t ++ y) = rep5 t ++ subst tryRule8 y := by
  have hmid : '<' ∉ ("!-- Short description: ").data ++ t ++ (" -->").data := by
    simp only [List.mem_append, not_or]
    exact ⟨⟨by decide, not_mem_of_plain '<' (by decide) t htpl⟩, by decide⟩
  have e1 : rep5 t ++ y
      = '<' :: (((("!-- Short description: ").data ++ t ++ (" -->").data)) ++ y) := by
    simp [rep5, List.append_assoc]
  have hnone : tryRule8
      ('<' :: (((("!-- Short description: ").data ++ t ++ (" -->").data)) ++ y)) = none :=
    rule8_bang _
  rw [e1, subst_cons_none _ _ _ hnone,
    subst_skip tryRule8 '<' rule8_head _ _ hmid]
  simp [rep5, List.append_assoc]

theorem skip7_refS (n y : Str) (hnpl : ∀ c ∈ n, plainChar c = true) :
    subst tryRule7 (Construct.render (.refS n) ++ y)
      = Construct.render (.refS n) ++ subst tryRule7 y := by
  have hmid1 : '<' ∉ ("ref name=").data ++ squo :: (n ++ [squo, '>']) := by
    simp only [List.mem_append, List.mem_cons, not_or]
    refine ⟨by decide, by decide, ?_, by decide⟩
    exact not_mem_of_plain '<' (by decide) n hnpl
  have hmid2 : '<' ∉ ("/ref>").data := by decide
  have e1 : Construct.render (.refS n) ++ y
      = '<' :: ((("ref name=").data ++ squo :: (n ++ [squo, '>'])) ++
          ('<' :: (("/ref>").data ++ y))) := by
    simp [Construct.render, refOpen, List.append_assoc]
  have hnone1 : tryRule7
      ('<' :: ((("ref name=").data ++ squo :: (n ++ [squo, '>'])) ++
        ('<' :: (("/ref>").data ++ y)))) = none :=
    rule7_at_squo _
  have hnone2 : tryRule7 ('<' :: (("/ref>").data ++ y)) = none := rule7_slash _
  rw [e1, subst_cons_none _ _ _ hnone1,
    subst_skip tryRule7 '<' rule7_head _ _ hmid1,
    subst_cons_none _ _ _ hnone2,
    subst_skip tryRule7 '<' rule7_head _ _ hmid2]
  simp [Construct.render, refOpen, List.append_assoc]

theorem skip8_refComment (n y : Str) (hnpl : ∀ c ∈ n, plainChar c = true) :
    subst tryRule8 (refComment n ++ y) = refComment n ++ subst tryRule8 y := by
  have hmid : '<' ∉ ("!--ref ").data ++ n ++ ("-->").data := by
    simp only [List.mem_append, not_or]
    exact ⟨⟨by decide, not_mem_of_plain '<' (by decide) n hnpl⟩, by decide⟩
  have e1 : refComment n ++ y
      = '<' :: (((("!--ref ").data ++ n ++ ("-->").data)) ++ y) := by
    simp [refComment, List.append_assoc]
  have hnone : tryRule8
      ('<' :: (((("!--ref ").data ++ n ++ ("-->").data)) ++ y)) = none :=
    rule8_bang _
  rw [e1, subst_cons_none _ _ _ hnone,
    subst_skip tryRule8 '<' rule8_head _ _ hmid]
  simp [refComment, List.append_assoc]

theorem rule1_pre : ∀ l res, tryRule1 l = some res → pat1 <+: l :=
  matchCore_pre pat1 dquo [dquo] rep1

theorem rule4_pre : ∀ l res, tryRule4 l = some res → pat4 <+: l :=
  matchCore_pre pat4 dquo [dquo, rbr, dquo] _

theorem rule5_pre : ∀ l res, tryRule5 l = some res → pat5 <+: l :=
  matchCore_pre pat5 rbr [rbr, rbr] rep5

theorem rule6_pre : ∀ l res, tryRule6 l = some res → pat6 <+: l :=
  matchCore_pre pat6 rbr [rbr, rbr] _

theorem rule9_pre : ∀ l res, tryRule9 l = some res → [lbr, lbr] <+: l :=
  matchCore_pre [lbr, lbr] rbr [rbr, rbr] _

theorem stage7 : ∀ (cs : List Construct), (∀ k ∈ cs, k.WF) →
    subst tryRule7 (renderWith Construct.renderA cs) = renderWith Construct.renderB cs := by
  intro cs
  induction cs with
  | nil => intro _; rfl
  | cons k ks ih =>
    intro hwf
    have hk := hwf k (List.mem_cons_self k ks)
    have hks : ∀ x ∈ ks, x.WF := fun x hx => hwf x (List.mem_cons_of_mem k hx)
    cases k with
    | shortDesc t =>
      obtain ⟨-, htpl⟩ := hk
      show subst tryRule7 (rep5 t ++ renderWith Construct.renderA ks) = _
      rw [skip7_rep5 t _ htpl, ih hks]
      rfl
    | refD n =>
      obtain ⟨hne, hnpl⟩ := hk
      have hm : tryRule7 (Construct.render (.refD n) ++ renderWith Construct.renderA ks)
          = some (refComment n, renderWith Construct.renderA ks) := by
        have hr := rule7_match n (renderWith Construct.renderA ks) hne hnpl
        simpa [Construct.render, List.append_assoc] using hr
      show subst tryRule7 (Construct.render (.refD n) ++ renderWith Construct.renderA ks) = _
      rw [subst_match tryRule7 rule7_consuming _ _ _ (by simp [Construct.render, refOpen]) hm,
        ih hks]
      rfl
    | refS n =>
      obtain ⟨-, hnpl⟩ := hk
      show subst tryRule7 (Construct.render (.refS n) ++ renderWith Construct.renderA ks) = _
      rw [skip7_refS n _ hnpl, ih hks]
      rfl
    | filler f =>
      show subst tryRule7 (f ++ renderWith Construct.renderA ks) = _
      rw [subst_skip tryRule7 '<' rule7_head f _ (not_mem_of_plain '<' (by decide) f hk),
        ih hks]
      rfl

theorem stage8 : ∀ (cs : List Construct), (∀ k ∈ cs, k.WF) →
    subst tryRule8 (renderWith Construct.renderB cs) = renderWith Construct.renderC cs := by
  intro cs
  induction cs with
  | nil => intro _; rfl
  | cons k ks ih =>
    intro hwf
    have hk := hwf k (List.mem_cons_self k ks)
    have hks : ∀ x ∈ ks, x.WF := fun x hx => hwf x (List.mem_cons_of_mem k hx)
    cases k with
    | shortDesc t =>
      obtain ⟨-, htpl⟩ := hk
      show subst tryRule8 (rep5 t ++ renderWith Construct.renderB ks) = _
      rw [skip8_rep5 t _ htpl, ih hks]
      rfl
    | refD n =>
      obtain ⟨-, hnpl⟩ := hk
      show subst tryRule8 (refComment n ++ renderWith Construct.renderB ks) = _
      rw [skip8_refComment n _ hnpl, ih hks]
      rfl
    | refS n =>
      obtain ⟨hne, hnpl⟩ := hk
      have hm : tryRule8 (Construct.render (.refS n) ++ renderWith Construct.renderB ks)
          = some (refComment n, renderWith Construct.renderB ks) := by
        have hr := rule8_match n (renderWith Construct.renderB ks) hne hnpl
        simpa [Construct.render, List.append_assoc] using hr
      show subst tryRule8 (Construct.render (.refS n) ++ renderWith Construct.renderB ks) = _
      rw [subst_match tryRule8 rule8_consuming _ _ _ (by simp [Construct.render, refOpen]) hm,
        ih hks]
      rfl
    | filler f =>
      show subst tryRule8 (f ++ renderWith Construct.renderB ks) = _
      rw [subst_skip tryRule8 '<' rule8_head f _ (not_mem_of_plain '<' (by decide) f hk),
        ih hks]
      rfl

theorem cleanL_eq (l : Str) :
    cleanL l = subst tryRule10 (subst tryRule9 (subst tryRule8 (subst tryRule7
      (subst tryRule6 (subst tryRule5 (subst tryRule4 (subst tryRule3
        (subst tryRule2 (subst tryRule1 l))))))))) := by
  simp only [cleanL, ruleList, List.foldl_cons, List.foldl_nil]

theorem pass1 (cs : List Construct) (hwf : ∀ k ∈ cs, k.WF) :
    cleanL (renderAll cs) = renderWith Construct.renderC cs := by
  have hdash : '-' ∉ renderAll cs := renderWith_not_mem _ '-' dash_not_mem_render cs hwf
  have hlbrA : lbr ∉ renderWith Construct.renderA cs :=
    renderWith_not_mem _ lbr
      (meta_not_mem_renderA lbr (by decide) (by decide) (by decide) (by decide)
        (by decide) (by decide) (by decide)) cs hwf
  have hlbrC : lbr ∉ renderWith Construct.renderC cs :=
    renderWith_not_mem _ lbr
      (meta_not_mem_renderC lbr (by decide) (by decide) (by decide) (by decide)
        (by decide)) cs hwf
  have hlsqC : '[' ∉ renderWith Construct.renderC cs :=
    renderWith_not_mem _ '['
      (meta_not_mem_renderC '[' (by decide) (by decide) (by decide) (by decide)
        (by decide)) cs hwf
  rw [cleanL_eq,
    subst_block tryRule1 pat1 '-' rule1_pre (by decide) _ hdash,
    subst_block tryRule2 (("|-").data) '-' rule2_pre (by decide) _ hdash,
    subst_block tryRule3 pat3 '-' rule3_pre (by decide) _ hdash,
    subst_block tryRule4 pat4 '-' rule4_pre (by decide) _ hdash,
    stage5 cs hwf,
    subst_block tryRule6 pat6 lbr rule6_pre (by decide) _ hlbrA,
    stage7 cs hwf,
    stage8 cs hwf,
    subst_block tryRule9 [lbr, lbr] lbr rule9_pre (by decide) _ hlbrC,
    subst_block tryRule10 (("[[").data) '[' rule10_pre (by decide) _ hlsqC]

theorem pass2 (cs : List Construct) (hwf : ∀ k ∈ cs, k.WF) :
    cleanL (renderWith Construct.renderC cs) = renderWith Construct.renderC cs := by
  have hlbr : lbr ∉ renderWith Construct.renderC cs :=
    renderWith_not_mem _ lbr
      (meta_not_mem_renderC lbr (by decide) (by decide) (by decide) (by decide)
        (by decide)) cs hwf
  have hpipe : '|' ∉ renderWith Construct.renderC cs :=
    renderWith_not_mem _ '|'
      (meta_not_mem_renderC '|' (by decide) (by decide) (by decide) (by decide)
        (by decide)) cs hwf
  have hdq : dquo ∉ renderWith Construct.renderC cs :=
    renderWith_not_mem _ dquo
      (meta_not_mem_renderC dquo (by decide) (by decide) (by decide) (by decide)
        (by decide)) cs hwf
  have hsq : squo ∉ renderWith Construct.renderC cs :=
    renderWith_not_mem _ squo
      (meta_not_mem_renderC squo (by decide) (by decide) (by decide) (by decide)
        (by decide)) cs hwf
  have hlb : '[' ∉ renderWith Construct.renderC cs :=
    renderWith_not_mem _ '['
      (meta_not_mem_renderC '[' (by decide) (by decide) (by decide) (by decide)
        (by decide)) cs hwf
  rw [cleanL_eq,
    subst_block tryRule1 pat1 lbr rule1_pre (by decide) _ hlbr,
    subst_block tryRule2 (("|-").data) '|' rule2_pre (by decide) _ hpipe,
    subst_block tryRule3 pat3 '|' rule3_pre (by decide) _ hpipe,
    subst_block tryRule4 pat4 dquo rule4_pre (by decide) _ hdq,
    subst_block tryRule5 pat5 lbr rule5_pre (by decide) _ hlbr,
    subst_block tryRule6 pat6 lbr rule6_pre (by decide) _ hlbr,
    subst_block tryRule7 (refOpen dquo) dquo (tryRef_pre dquo) (by decide) _ hdq,
    subst_block tryRule8 (refOpen squo) squo (tryRef_pre squo) (by decide) _ hsq,
    subst_block tryRule9 [lbr, lbr] lbr rule9_pre (by decide) _ hlbr,
    subst_block tryRule10 (("[[").data) '[' rule10_pre (by decide) _ hlb]

/-- C7 (confirmed).  The Markup Cleaner is idempotent on every input text
consisting only of short-description and empty-named-reference constructs
(both quote styles), with plain filler text between them:
`clean (clean x) = clean x`.  One pass rewrites every construct into its
comment form, which no rule of the pipeline matches again. -/
theorem spec_C7 (cs : List Construct) (hwf : ∀ k ∈ cs, k.WF) :
    clean_wiki_markup (clean_wiki_markup ((renderAll cs).asString)) =
      clean_wiki_markup ((renderAll cs).asString) := by
  show (cleanL ((cleanL ((renderAll cs).asString.data)).asString.data)).asString
    = (cleanL ((renderAll cs).asString.data)).asString
  have hdata : ∀ l : Str, (l.asString).data = l := fun l => rfl
  rw [hdata, hdata, pass1 cs hwf, pass2 cs hwf]

/-- C7 witness: a concrete normalized input holding one short-description
template, filler text, and one empty named reference of each quote style is
unchanged by a second cleaning pass. -/
theorem spec_C7_witness :
    clean_wiki_markup (clean_wiki_markup ((renderAll
      [Construct.shortDesc (("A theoretical physicist").data),
       Construct.filler ((" see also ").data),
       Construct.refD (("note1").data),
       Construct.refS (("note2").data)]).asString)) =
    clean_wiki_markup ((renderAll
      [Construct.shortDesc (("A theoretical physicist").data),
       Construct.filler ((" see also ").data),
       Construct.refD (("note1").data),
       Construct.refS (("note2").data)]).asString) :=
  spec_C7
    [Construct.shortDesc (("A theoretical physicist").data),
     Construct.filler ((" see also ").data),
     Construct.refD (("note1").data),
     Construct.refS (("note2").data)]
    (by
      intro k hk
      simp only [List.mem_cons, List.not_mem_nil, or_false] at hk
      rcases hk with rfl | rfl | rfl | rfl
      · exact ⟨by decide, by decide⟩
      · exact (by decide : ∀ c ∈ (" see also ").data, plainChar c = true)
      · exact ⟨by decide, by decide⟩
      · exact ⟨by decide, by decide⟩)

theorem splitPipe_no_pipe : ∀ (l : Str), '|' ∉ l → splitPipe l = (l, none) := by
  intro l
  induction l with
  | nil => intro _; rfl
  | cons c cs ih =>
    intro h
    have hc : c ≠ '|' := fun hh => h (hh ▸ List.mem_cons_self c cs)
    simp only [splitPipe, if_neg hc, ih (fun hm => h (List.mem_cons_of_mem c hm))]

theorem splitPipe_pipe : ∀ (t l : Str), '|' ∉ t → splitPipe (t ++ '|' :: l) = (t, some l) := by
  intro t
  induction t with
  | nil => intro l _; simp [splitPipe]
  | cons c cs ih =>
    intro l h
    have hc : c ≠ '|' := fun hh => h (hh ▸ List.mem_cons_self c cs)
    have hrec := ih l (fun hm => h (List.mem_cons_of_mem c hm))
    simp [List.cons_append, splitPipe, if_neg hc, List.append_eq, hrec]

/-- C8 (confirmed).  For every internal link with a pipe, the cleaner's link
rewriter emits a link whose visible label is the right-of-pipe text and
whose target is the left-of-pipe text with spaces replaced by underscores;
for a pipeless link the label is the raw link text and spaces are replaced
only in the target; and concretely
`clean ("See [[Albert Einstein|Einstein]] for more.")` contains
`[Einstein](/Albert_Einstein)`. -/
theorem spec_C8 :
    (∀ (t l : Str), '|' ∉ t →
      process_wikilink (t ++ '|' :: l) =
        '[' :: l ++ ("](/").data ++ underscore t ++ [')']) ∧
    (∀ link : Str, '|' ∉ link →
      process_wikilink link =
        '[' :: link ++ ("](/").data ++ underscore link ++ [')']) ∧
    clean_wiki_markup ("See [[Albert Einstein|Einstein]] for more.") =
      ("See [Einstein](/Albert_Einstein) for more.") ∧
    ("[Einstein](/Albert_Einstein)").data <:+:
      (clean_wiki_markup ("See [[Albert Einstein|Einstein]] for more.")).data := by
  refine ⟨?_, ?_, by decide, ?_⟩
  · intro t l ht
    simp [process_wikilink, splitPipe_pipe t l ht]
  · intro link hl
    simp [process_wikilink, splitPipe_no_pipe link hl]
  · exact ⟨("See ").data, (" for more.").data, by decide⟩

/-- C8 witness: the piped-link rewrite applied to the spec's concrete link
text, with the no-pipe-in-target hypothesis discharged by computation. -/
theorem spec_C8_witness :
    process_wikilink ((("Albert Einstein").data) ++ '|' :: (("Einstein").data)) =
      '[' :: (("Einstein").data) ++ ("](/").data ++
        underscore (("Albert Einstein").data) ++ [')'] :=
  spec_C8.1 (("Albert Einstein").data) (("Einstein").data) (by decide)

/-- C1 witness: the amended invariant applied to a concrete one-page run. -/
theorem spec_C1_amended_witness :
    (∀ sv ∈ (run 2 (fun _ => true) 1000 [Event.pageEnd ⟨some ("A"), some ("x")⟩]
        0 0 ⟨0, 0, 0⟩ []).saves,
      (⟨0, 0, 0⟩ : LoopState).processed ≤ sv.position ∧
      sv.position + (⟨0, 0, 0⟩ : LoopState).success + (⟨0, 0, 0⟩ : LoopState).failed =
        sv.success + sv.failed + (⟨0, 0, 0⟩ : LoopState).processed ∧
      sv.position ≤ (⟨0, 0, 0⟩ : LoopState).processed +
        pagesIn [Event.pageEnd ⟨some ("A"), some ("x")⟩]) ∧
    (run 2 (fun _ => true) 1000 [Event.pageEnd ⟨some ("A"), some ("x")⟩]
        0 0 ⟨0, 0, 0⟩ []).saves.Pairwise (fun a b => a.position ≤ b.position) ∧
    (run 2 (fun _ => true) 1000 [Event.pageEnd ⟨some ("A"), some ("x")⟩]
        0 0 ⟨0, 0, 0⟩ []).exitCode = 0 :=
  spec_C1_amended 2 1000 0 0 (fun _ => true)
    [Event.pageEnd ⟨some ("A"), some ("x")⟩] ⟨0, 0, 0⟩
